import Mathlib

/-!
Verification of the TroutTracker Lake Name Resolver
(`src/backend/lake-matcher/`): a shallow embedding of `normalizer.py`,
`matcher.py`, `manual_override.py` and `match_service.py`, followed by
theorems settling the behavioural claims about the resolver.

Modelling conventions:
* Python strings are Lean `String`s; all character work is done on the
  underlying `List Char` (Python `str` is a sequence of code points).
* Python `str.lower` / `str.upper` are modelled on the ASCII range
  (`pyLower` / `pyUpper`).  In `normalize_name` the source only ever
  lowercases text that has already been restricted to `[0-9a-zA-Z]` plus
  whitespace, so this is exact there.
* Python's `float("-inf")` sentinel score is modelled as `Option ℤ`
  with `none` standing for `-inf` (`scoreLt`, `addBoost` reproduce the
  comparison and addition semantics used by `matcher.py`).
* `latitude` / `longitude` are carried opaquely as `ℚ`; the resolver
  never computes with them, it only copies them into results.
* The DynamoDB cache and the dataset file system are modelled as an
  explicit environment (`Env`); the effects the facade performs are
  returned as a trace (`Effect`) so that frame claims can be stated.
-/

namespace TroutTracker

/-! ## Character primitives (Python `str` methods, ASCII range) -/

/-- ASCII lowercasing of one character, as Python `str.lower` acts on
`A`-`Z`. -/
def pyLower (c : Char) : Char :=
  if 65 ≤ c.toNat ∧ c.toNat ≤ 90 then Char.ofNat (c.toNat + 32) else c

/-- ASCII uppercasing of one character, as Python `str.upper` acts on
`a`-`z`. -/
def pyUpper (c : Char) : Char :=
  if 97 ≤ c.toNat ∧ c.toNat ≤ 122 then Char.ofNat (c.toNat - 32) else c

/-- ASCII whitespace, the characters Python's `str.strip`, `str.split`
and `\s` treat as blank: space, tab, newline, carriage return, vertical
tab, form feed. -/
def isPySpace (c : Char) : Bool :=
  c.toNat = 32 ∨ c.toNat = 9 ∨ c.toNat = 10 ∨ c.toNat = 13 ∨ c.toNat = 11 ∨ c.toNat = 12

def isDigitChar (c : Char) : Bool := 48 ≤ c.toNat ∧ c.toNat ≤ 57

def isUpperAlpha (c : Char) : Bool := 65 ≤ c.toNat ∧ c.toNat ≤ 90

def isLowerAlpha (c : Char) : Bool := 97 ≤ c.toNat ∧ c.toNat ≤ 122

def isAsciiAlnum (c : Char) : Bool := isDigitChar c || isUpperAlpha c || isLowerAlpha c

/-- A character that can occur inside a normalized token: lowercase
letter or digit. -/
def isCleanChar (c : Char) : Bool := isLowerAlpha c || isDigitChar c

/-! ## List-of-characters primitives (Python string operators) -/

/-- `startsWithPat pat l`: `l` begins with `pat` (used for Python's
substring tests and `str.replace`). -/
def startsWithPat : List Char → List Char → Bool
  | [], _ => true
  | _ :: _, [] => false
  | a :: as, b :: bs => a = b && startsWithPat as bs

/-- Python's `pat in text` substring containment on character lists. -/
def hasSub (pat : List Char) : List Char → Bool
  | [] => startsWithPat pat []
  | t :: ts => startsWithPat pat (t :: ts) || hasSub pat ts

/-- Python `text.replace(pat, rep)`: replace all non-overlapping
occurrences, scanning left to right.  Structural recursion on a fuel
counter (`replaceAll` supplies the list length, which suffices for any
non-empty pattern, so the fuel never runs out). -/
def replaceAllFuel (pat rep : List Char) : ℕ → List Char → List Char
  | 0, l => l
  | _ + 1, [] => []
  | fuel + 1, c :: rest =>
    if startsWithPat pat (c :: rest) then
      rep ++ replaceAllFuel pat rep fuel ((c :: rest).drop pat.length)
    else
      c :: replaceAllFuel pat rep fuel rest

def replaceAll (pat rep l : List Char) : List Char :=
  if pat = [] then l else replaceAllFuel pat rep l.length l

/-- Python `re.sub(r"\s+", " ", ·)`: every maximal whitespace run
becomes a single space.  The flag records whether we are inside a
whitespace run whose space has already been emitted. -/
def collapseWsAux : List Char → Bool → List Char
  | [], _ => []
  | c :: rest, inRun =>
    if isPySpace c then
      if inRun then collapseWsAux rest true else ' ' :: collapseWsAux rest true
    else c :: collapseWsAux rest false

def collapseWs (l : List Char) : List Char := collapseWsAux l false

/-- Python `str.strip()`. -/
def pyStripChars (l : List Char) : List Char :=
  ((l.dropWhile isPySpace).reverse.dropWhile isPySpace).reverse

/-- Python `str.split()`: split on whitespace runs, dropping empty
pieces.  `acc` holds the current token, reversed. -/
def splitToksAux : List Char → List Char → List String
  | [], [] => []
  | [], acc => [String.mk acc.reverse]
  | c :: cs, acc =>
    if isPySpace c then
      match acc with
      | [] => splitToksAux cs []
      | _ :: _ => String.mk acc.reverse :: splitToksAux cs []
    else
      splitToksAux cs (c :: acc)

def splitTokens (l : List Char) : List String := splitToksAux l []

/-- The dedup loop of `normalize_name`: keep the first occurrence of
each non-empty token (`if token and token not in seen`). -/
def dedupTokens : List String → List String → List String
  | [], _ => []
  | t :: rest, seen =>
    if t ≠ "" ∧ t ∉ seen then t :: dedupTokens rest (t :: seen)
    else dedupTokens rest seen

/-- Python `" ".join(tokens)`. -/
def joinSpace : List String → String
  | [] => ""
  | [t] => t
  | t :: rest => t ++ " " ++ joinSpace rest

/-! ## String-level wrappers -/

def pyLowerStr (s : String) : String := String.mk (s.toList.map pyLower)

def pyUpperStr (s : String) : String := String.mk (s.toList.map pyUpper)

def pyStrip (s : String) : String := String.mk (pyStripChars s.toList)

/-- Python `a in b` on strings. -/
def hasSubStr (pat text : String) : Bool := hasSub pat.toList text.toList

/-! ## Normalizer (`normalizer.py`) -/

/-- `TOKEN_EXPANSIONS` from `normalizer.py`. -/
def TOKEN_EXPANSIONS : List (String × List String) :=
  [("lk", ["lake"]),
   ("lks", ["lakes"]),
   ("pd", ["pond"]),
   ("pnd", ["pond"]),
   ("prk", ["park"]),
   ("pk", ["park"]),
   ("res", ["reservoir"]),
   ("co", ["county"]),
   ("cnty", ["county"]),
   ("st", ["saint"]),
   ("mt", ["mount"]),
   ("mtn", ["mountain"]),
   ("ctr", ["center"]),
   ("ctrs", ["centers"]),
   ("no", ["number"]),
   ("n", ["north"]),
   ("s", ["south"]),
   ("e", ["east"]),
   ("w", ["west"]),
   ("ne", ["northeast"]),
   ("nw", ["northwest"]),
   ("se", ["southeast"]),
   ("sw", ["southwest"])]

/-- `COUNTY_ABBREVIATIONS` from `normalizer.py` (insertion order kept:
Python dicts iterate in insertion order). -/
def COUNTY_ABBREVIATIONS : List (String × String) :=
  [("ADAM", "adams"),
   ("ASOT", "asotin"),
   ("BENT", "benton"),
   ("CHEL", "chelan"),
   ("CLAL", "clallam"),
   ("CLAR", "clark"),
   ("COWL", "cowlitz"),
   ("DOUG", "douglas"),
   ("FERR", "ferry"),
   ("FRAN", "franklin"),
   ("GARF", "garfield"),
   ("GRAN", "grant"),
   ("GRAY", "grays harbor"),
   ("ISLA", "island"),
   ("JEFF", "jefferson"),
   ("KING", "king"),
   ("KITS", "kitsap"),
   ("KITT", "kittitas"),
   ("KLIC", "klickitat"),
   ("LEWI", "lewis"),
   ("LINC", "lincoln"),
   ("MASO", "mason"),
   ("OKAN", "okanogan"),
   ("PACI", "pacific"),
   ("PEND", "pend oreille"),
   ("PIER", "pierce"),
   ("SANJ", "san juan"),
   ("SKAG", "skagit"),
   ("SKAM", "skamania"),
   ("SNOH", "snohomish"),
   ("SPOK", "spokane"),
   ("STEV", "stevens"),
   ("THUR", "thurston"),
   ("WAHK", "wahkiakum"),
   ("WALL", "walla walla"),
   ("WHAT", "whatcom"),
   ("WHIT", "whitman"),
   ("YAKI", "yakima")]

/-- `_normalize_county_input`: lowercase, strip `county`/`cnty`, drop
non-alphabetic characters, collapse whitespace; empty result (or falsy
input) becomes `none`. -/
def normalizeCountyInput (value : Option String) : Option String :=
  match value with
  | none => none
  | some v =>
    if v = "" then none
    else
      let lowered := (pyLowerStr v).toList
      let c1 := replaceAll "county".toList " ".toList lowered
      let c2 := replaceAll "cnty".toList " ".toList c1
      let c3 := c2.map (fun c => if isLowerAlpha c || isPySpace c then c else ' ')
      let c4 := pyStripChars (collapseWs c3)
      if c4 = [] then none else some (String.mk c4)

/-- The matches of `re.findall(r"\(([A-Z]{3,5})\)", ·)`: parenthesized
runs of three to five uppercase letters, scanned left to right without
overlap.  Structural recursion on a fuel counter (`scanParenCodes`
supplies the list length, which never runs out). -/
def scanParenFuel : ℕ → List Char → List String
  | 0, _ => []
  | _ + 1, [] => []
  | fuel + 1, c :: rest =>
    if c.toNat = 40 then
      let run := rest.takeWhile isUpperAlpha
      if 3 ≤ run.length ∧ run.length ≤ 5 ∧ (rest.drop run.length).headD ' ' = ')' then
        String.mk run :: scanParenFuel fuel (rest.drop (run.length + 1))
      else
        scanParenFuel fuel rest
    else
      scanParenFuel fuel rest

def scanParenCodes (l : List Char) : List String := scanParenFuel l.length l

/-- `_detect_county_hint` from `normalizer.py`. -/
def detectCountyHint (raw_name : String) : Option String :=
  let uppercase := pyUpperStr raw_name
  let codes := scanParenCodes uppercase.toList
  match codes.findSome? (fun code => List.lookup code COUNTY_ABBREVIATIONS) with
  | some county => some county
  | none =>
    match COUNTY_ABBREVIATIONS.findSome? (fun kv =>
        if hasSubStr (kv.1 ++ " CO") uppercase || hasSubStr (kv.1 ++ " COUNTY") uppercase
        then some kv.2 else none) with
    | some county => some county
    | none =>
      COUNTY_ABBREVIATIONS.findSome? (fun kv =>
        if hasSubStr (pyUpperStr kv.2) uppercase then some kv.2 else none)

/-- `_normalize_token` from `normalizer.py`. -/
def normalizeToken (token : String) : List String :=
  let lower := pyLowerStr token
  match List.lookup lower TOKEN_EXPANSIONS with
  | some exp => exp
  | none =>
    match List.lookup (pyUpperStr lower) COUNTY_ABBREVIATIONS with
    | some county => splitTokens county.toList
    | none => [lower]

/-- The character pipeline of `normalize_name`: `&` becomes `" and "`;
`-`, `_`, `/`, `(`, `)` become spaces; any remaining character that is
not ASCII alphanumeric or whitespace becomes a space; the result is
lowercased.  All steps of the source are per-character, so they compose
into one map. -/
def charMap (c : Char) : List Char :=
  if c.toNat = 38 then [' ', 'a', 'n', 'd', ' ']
  else if c.toNat = 45 ∨ c.toNat = 95 ∨ c.toNat = 47 then [' ']
  else if c.toNat = 40 ∨ c.toNat = 41 then [' ']
  else if isAsciiAlnum c || isPySpace c then [pyLower c]
  else [' ']

def charNormalize (l : List Char) : List Char := l.flatMap charMap

/-- Output of the Normalizer (`normalize_name`). -/
structure NormalizedQuery where
  normalized : String
  tokens : List String
  countyHint : Option String
deriving DecidableEq, Repr

/-- A Python value passed where a string is expected: either an actual
string, or any non-string value (the `isinstance(raw_name, str)` guard
only distinguishes these two cases). -/
inductive PyVal where
  | str (s : String)
  | nonStr
deriving DecidableEq, Repr

/-- The string path of `normalize_name`. -/
def normalizeQ (raw_name : String) (explicit_county : Option String) : NormalizedQuery :=
  let detected := detectCountyHint raw_name
  let county_hint :=
    match normalizeCountyInput explicit_county with
    | some h => some h
    | none => normalizeCountyInput detected
  let working := charNormalize raw_name.toList
  let tokens := splitTokens working
  let expanded := tokens.flatMap normalizeToken
  let deduped := dedupTokens expanded []
  { normalized := joinSpace deduped, tokens := deduped, countyHint := county_hint }

/-- `normalize_name` from `normalizer.py`.  A non-string input returns
the empty query (the source's `isinstance` guard `return`s, it does not
raise). -/
def normalize_name (raw_name : PyVal) (explicit_county : Option String) : NormalizedQuery :=
  match raw_name with
  | .nonStr => { normalized := "", tokens := [], countyHint := none }
  | .str s => normalizeQ s explicit_county

/-! ## Matcher (`matcher.py`) -/

/-- Inner loop of `_levenshtein`: build one DP row.  `prev` walks the
previous row (`head` is `prev[j-1]`, the next entry `prev[j]`), `cur`
is the last value appended to the current row. -/
def levRowAux (ca : Char) : List Char → List ℕ → ℕ → List ℕ
  | [], _, _ => []
  | cb :: bs, diag :: above :: prevRest, cur =>
    let cost := if ca = cb then 0 else 1
    let v := min (cur + 1) (min (above + 1) (diag + cost))
    v :: levRowAux ca bs (above :: prevRest) v
  | _ :: _, _, _ => []

/-- Outer loop of `_levenshtein` over the characters of `a`. -/
def levLoop (bs : List Char) : List Char → ℕ → List ℕ → List ℕ
  | [], _, prev => prev
  | ca :: arest, i, prev => levLoop bs arest (i + 1) (i :: levRowAux ca bs prev i)

/-- `_levenshtein` from `matcher.py`: unit-cost edit distance via
two-row dynamic programming, with the source's shortcuts. -/
def levenshtein (a b : String) : ℕ :=
  if a = b then 0
  else if a = "" then b.toList.length
  else if b = "" then a.toList.length
  else (levLoop b.toList a.toList 1 (List.range (b.toList.length + 1))).getLastD 0

/-- `_tokens_partially_match` from `matcher.py`. -/
def tokensPartMatch (a b : String) : Bool :=
  if a = b then false
  else if a.toList.length < 3 ∨ b.toList.length < 3 then false
  else hasSubStr a b || hasSubStr b a

/-- First loop of `_compute_token_score`: count candidate positions
whose token occurs in the query tokens, recording the used positions. -/
def exactPassAux (query_tokens : List String) : List (ℕ × String) → ℕ → List ℕ → ℕ × List ℕ
  | [], exact, used => (exact, used)
  | p :: rest, exact, used =>
    if p.2 ∈ query_tokens then exactPassAux query_tokens rest (exact + 1) (p.1 :: used)
    else exactPassAux query_tokens rest exact used

/-- Second loop of `_compute_token_score`: one partial credit per
still-unused candidate position with a partially matching query
token. -/
def partCountAux (query_tokens : List String) : List (ℕ × String) → List ℕ → ℕ
  | [], _ => 0
  | p :: rest, used =>
    if p.1 ∈ used then partCountAux query_tokens rest used
    else if query_tokens.any (fun q => tokensPartMatch q p.2) then
      partCountAux query_tokens rest (p.1 :: used) + 1
    else partCountAux query_tokens rest used

/-- `_compute_token_score` from `matcher.py`.  `none` models the
`-math.inf` score returned when either token list is empty. -/
def computeTokenScore (query_tokens : List String) (query_string : String)
    (candidate_tokens : List String) : Option ℤ :=
  if query_tokens = [] ∨ candidate_tokens = [] then none
  else
    let ep := exactPassAux query_tokens candidate_tokens.enum 0 []
    let pcount := partCountAux query_tokens candidate_tokens.enum ep.2
    let candidate_string := joinSpace candidate_tokens
    let penalty := min (levenshtein query_string candidate_string) 10
    some ((ep.1 : ℤ) * 3 + (pcount : ℤ) - (penalty : ℤ))

/-- `_county_boost` from `matcher.py`. -/
def countyBoost (input_county : Option String) (candidate_county : Option String) : ℤ :=
  match input_county, candidate_county with
  | some ic, some cc =>
    if ic ≠ "" ∧ cc ≠ "" then
      if hasSubStr (pyLowerStr ic) (pyLowerStr cc) then 2 else 0
    else 0
  | _, _ => 0

/-- Python `score > best` where scores may be `-inf` (`none`). -/
def scoreLt : Option ℤ → Option ℤ → Bool
  | none, some _ => true
  | none, none => false
  | some _, none => false
  | some a, some b => a < b

/-- Adding the integer county boost to a possibly `-inf` score. -/
def addBoost (s : Option ℤ) (b : ℤ) : Option ℤ := s.map (· + b)

/-- A gazetteer record as hydrated by `gnis_loader.py`: the raw dataset
fields plus the attached `normalized` query and `tokens`. -/
structure GazRecord where
  official_name : String
  latitude : ℚ
  longitude : ℚ
  county_name : Option String
  feature_type : Option String
  alternative_names : List String
  normalized : NormalizedQuery
  tokens : List String
deriving DecidableEq, Repr

inductive Source where
  | manual_override
  | cache
  | algorithm
deriving DecidableEq, Repr

inductive Strategy where
  | token
  | fuzzy
deriving DecidableEq, Repr

/-- The response shape (`MatchResult`).  Fields a code path does not
set are `none` (absent keys in the source's dicts). -/
structure MatchResult where
  officialName : Option String
  lat : Option ℚ
  lng : Option ℚ
  matched_score : ℤ
  source : Source
  strategy : Option Strategy
  feature_type : Option String
  county_name : Option String
deriving DecidableEq, Repr

/-- The token vectors compared for one record: its own tokens, then the
tokens of each alternative name, normalized on the fly. -/
def tokenSets (r : GazRecord) : List (List String) :=
  r.tokens :: r.alternative_names.map (fun alt => (normalize_name (.str alt) none).tokens)

/-- The narrowing predicate of `find_matching_lake`:
`record.get("county_name") and county_hint.lower() in record["county_name"].lower()`. -/
def countyFilter (hint : String) (county_name : Option String) : Bool :=
  match county_name with
  | some cn => cn ≠ "" && hasSubStr (pyLowerStr hint) (pyLowerStr cn)
  | none => false

/-- The total score one candidate token vector earns for a record:
token score plus county boost (`-inf` absorbs the boost, as in
Python). -/
def tsScore (query_tokens : List String) (query_string : String) (county_hint : Option String)
    (r : GazRecord) (ts : List String) : Option ℤ :=
  addBoost (computeTokenScore query_tokens query_string ts)
    (countyBoost county_hint r.county_name)

/-- `if best_match is None or score > best_match["matched_score"]`. -/
def pickBetter (r : GazRecord) (score : Option ℤ) (b : Option (GazRecord × Option ℤ)) :
    Option (GazRecord × Option ℤ) :=
  match b with
  | none => some (r, score)
  | some p => if scoreLt p.2 score then some (r, score) else some p

/-- The inner best-pick loop of `find_matching_lake` over one record's
token sets. -/
def scanRecord (query_tokens : List String) (query_string : String) (county_hint : Option String)
    (b : Option (GazRecord × Option ℤ)) (r : GazRecord) : Option (GazRecord × Option ℤ) :=
  (tokenSets r).foldl (fun b ts => pickBetter r (tsScore query_tokens query_string county_hint r ts) b) b

/-- The best-pick loop of `find_matching_lake` over all candidates and
their token sets. -/
def bestTokenMatch (query_tokens : List String) (query_string : String)
    (county_hint : Option String) (candidates : List GazRecord) : Option (GazRecord × Option ℤ) :=
  candidates.foldl (scanRecord query_tokens query_string county_hint) none

/-- The normalized string `_fuzzy_fallback` compares against: the
hydrated one, recomputed from `official_name` when falsy. -/
def fuzzyNorm (r : GazRecord) : String :=
  if r.normalized.normalized = "" then (normalize_name (.str r.official_name) none).normalized
  else r.normalized.normalized

/-- `max(1, 20 - distance)` in `_fuzzy_fallback`. -/
def fuzzyScore (query_string : String) (r : GazRecord) : ℤ :=
  max 1 (20 - (levenshtein query_string (fuzzyNorm r) : ℤ))

/-- One step of `_fuzzy_fallback`'s loop
(`if not best or score > best["score"]`). -/
def fuzzyStep (query_string : String) (b : Option (GazRecord × ℤ)) (r : GazRecord) :
    Option (GazRecord × ℤ) :=
  match b with
  | none => some (r, fuzzyScore query_string r)
  | some p => if p.2 < fuzzyScore query_string r then some (r, fuzzyScore query_string r) else some p

/-- The result dict built by `_fuzzy_fallback` from the best pair. -/
def fuzzyResult (p : GazRecord × ℤ) : MatchResult :=
  { officialName := some p.1.official_name,
    lat := some p.1.latitude,
    lng := some p.1.longitude,
    matched_score := p.2,
    source := .algorithm,
    strategy := some .fuzzy,
    feature_type := none,
    county_name := none }

/-- `_fuzzy_fallback` from `matcher.py`. -/
def fuzzyFallback (records : List GazRecord) (query_string : String) : Option MatchResult :=
  (records.foldl (fuzzyStep query_string) none).map fuzzyResult

/-- The result dict built in the token loop of `find_matching_lake`. -/
def tokenResult (r : GazRecord) (score : ℤ) : MatchResult :=
  { officialName := some r.official_name,
    lat := some r.latitude,
    lng := some r.longitude,
    matched_score := score,
    source := .algorithm,
    strategy := some .token,
    feature_type := r.feature_type,
    county_name := r.county_name }

/-- Candidate narrowing in `find_matching_lake`: a truthy county hint
restricts to records whose county matches, unless that leaves
nothing. -/
def narrowRecords (records : List GazRecord) (county_hint : Option String) : List GazRecord :=
  match county_hint with
  | some h =>
    if h = "" then records
    else
      let narrowed := records.filter (fun (r : GazRecord) => countyFilter h r.county_name)
      if narrowed = [] then records else narrowed
  | none => records

/-- `find_matching_lake` from `matcher.py`, with the loaded gazetteer
and the `MIN_TOKEN_SCORE` configuration passed explicitly. -/
def find_matching_lake (min_token_score : ℤ) (records : List GazRecord)
    (normalized_input : NormalizedQuery) : Option MatchResult :=
  let county_hint := normalized_input.countyHint
  let query_tokens := normalized_input.tokens
  let query_string := normalized_input.normalized
  let candidates := narrowRecords records county_hint
  match bestTokenMatch query_tokens query_string county_hint candidates with
  | some (r, some n) =>
    if min_token_score ≤ n then some (tokenResult r n)
    else fuzzyFallback records query_string
  | some (_, none) => fuzzyFallback records query_string
  | none => fuzzyFallback records query_string

/-! ## Override table (`manual_override.py`) -/

structure OverrideEntry where
  official_name : String
  lat : ℚ
  lng : ℚ
deriving DecidableEq, Repr

/-- The result built by `manual_override_check` on a hit:
`matched_score` is `9007199254740991 = 2^53 - 1`. -/
def overrideResult (e : OverrideEntry) : MatchResult :=
  { officialName := some e.official_name,
    lat := some e.lat,
    lng := some e.lng,
    matched_score := 9007199254740991,
    source := .manual_override,
    strategy := none,
    feature_type := none,
    county_name := none }

/-- `manual_override_check` with the loaded override table passed
explicitly. -/
def manual_override_check (overrides : List (String × OverrideEntry)) (wdfw_name : String) :
    Option MatchResult :=
  (List.lookup wdfw_name overrides).map overrideResult

/-! ## Resolver facade (`match_service.py`) -/

inductive LoadError where
  | missing
  | corrupt
deriving DecidableEq, Repr

inductive MatchError where
  | invalidInput
  | dataset (e : LoadError)
deriving DecidableEq, Repr

/-- The observable side effects of one `match_lake_name` call. -/
inductive Effect where
  | cacheRead (key : String)
  | cacheWrite (key : String)
  | gazLoad
deriving DecidableEq, Repr

/-- The environment a resolve call runs in: the override table, the
cache backend (`none` models both a miss and an unavailable backend,
which `check_cache` folds together), the gazetteer load outcome and the
`MIN_TOKEN_SCORE` configuration. -/
structure Env where
  overrides : List (String × OverrideEntry)
  cacheGet : String → Option MatchResult
  gazetteer : Except LoadError (List GazRecord)
  min_token_score : ℤ

/-- `_build_cache_key` from `match_service.py` (a falsy hint means the
bare name). -/
def buildCacheKey (lake_name : String) (county_hint : Option String) : String :=
  match county_hint with
  | some h => if h = "" then lake_name else lake_name ++ "|" ++ h
  | none => lake_name

/-- The null result returned when the matcher yields nothing. -/
def nullResult : MatchResult :=
  { officialName := none, lat := none, lng := none, matched_score := 0,
    source := .algorithm, strategy := none, feature_type := none, county_name := none }

/-- The matcher call and cache write of `match_lake_name` once the
gazetteer is loaded.  (`_serialize_decimal` is the identity here: the
model carries exact rationals throughout.) -/
def runMatcherLoaded (min_token_score : ℤ) (records : List GazRecord) (q : NormalizedQuery)
    (cache_key : String) (tr : List Effect) : Except MatchError MatchResult × List Effect :=
  match find_matching_lake min_token_score records q with
  | some result => (.ok result, tr ++ [.gazLoad, .cacheWrite cache_key])
  | none => (.ok nullResult, tr ++ [.gazLoad])

/-- The tail of `match_lake_name`: load the gazetteer, run the matcher,
write a hit to the cache. -/
def runMatcher (env : Env) (q : NormalizedQuery) (cache_key : String) (tr : List Effect) :
    Except MatchError MatchResult × List Effect :=
  match env.gazetteer with
  | .error e => (.error (.dataset e), tr ++ [.gazLoad])
  | .ok records => runMatcherLoaded env.min_token_score records q cache_key tr

/-- `match_lake_name` from `match_service.py`, returning the result (or
error) together with the trace of effects performed. -/
def match_lake_name (env : Env) (wdfw_name : PyVal) (county : Option String) :
    Except MatchError MatchResult × List Effect :=
  match wdfw_name with
  | .nonStr => (.error .invalidInput, [])
  | .str s =>
    if s = "" then (.error .invalidInput, [])
    else
      let trimmed := pyStrip s
      if trimmed = "" then (.error .invalidInput, [])
      else
        match manual_override_check env.overrides trimmed with
        | some manual => (.ok manual, [])
        | none =>
          let normalized := normalize_name (.str trimmed) county
          let county_hint := normalized.countyHint
          let cache_key := buildCacheKey trimmed county_hint
          match env.cacheGet cache_key with
          | some cached => (.ok cached, [.cacheRead cache_key])
          | none =>
            match county_hint with
            | some h =>
              if h = "" then runMatcher env normalized cache_key [.cacheRead cache_key]
              else
                match env.cacheGet trimmed with
                | some cached => (.ok cached, [.cacheRead cache_key, .cacheRead trimmed])
                | none => runMatcher env normalized cache_key [.cacheRead cache_key, .cacheRead trimmed]
            | none => runMatcher env normalized cache_key [.cacheRead cache_key]

/-! ## Proof-support predicates and verification fixtures -/

/-- Adjacency invariant: every occurrence of `pend` is immediately
followed by `oreille` (single-token county words re-expand to
themselves; `pend` alone re-expands to `pend oreille`, which dedup
absorbs thanks to this invariant). -/
def pendAdj : List String → Bool
  | [] => true
  | t :: rest => (t != "pend" || (rest.headD "" == "oreille")) && pendAdj rest

/-- Weakened adjacency after dedup: every `pend` is preceded by an
earlier `oreille` (flag) or immediately followed by one. -/
def pendOk : List String → Bool → Bool
  | [], _ => true
  | t :: rest, flag =>
    (t != "pend" || (flag || rest.headD "" == "oreille")) && pendOk rest (flag || t == "oreille")

/-- A token all of whose characters are lowercase alphanumeric. -/
def cleanTok (t : String) : Bool := t.toList.all isCleanChar

/-- A token that the second normalization pass maps to itself (or, for
`pend`, back to the pair it came with). -/
abbrev expandsSelf (d : String) : Prop :=
  normalizeToken d = if d = "pend" then ["pend", "oreille"] else [d]

def wOverrideEntry : OverrideEntry :=
  { official_name := "South Lewis County Regional Park Pond", lat := 46, lng := -123 }

def wOverrides : List (String × OverrideEntry) := [("LEWIS CO PRK PD-S", wOverrideEntry)]

/-- An environment whose gazetteer load would fail and whose cache is
unavailable; overrides must still work in it. -/

def wEnvBroken : Env :=
  { overrides := wOverrides, cacheGet := fun _ => none,
    gazetteer := .error .missing, min_token_score := 3 }

def wGazRecord : GazRecord :=
  { official_name := "Battle Ground Lake", latitude := 45, longitude := -122,
    county_name := some "Clark", feature_type := some "lake", alternative_names := [],
    normalized := normalizeQ "Battle Ground Lake" none,
    tokens := (normalizeQ "Battle Ground Lake" none).tokens }

def wEnvLive : Env :=
  { overrides := [], cacheGet := fun _ => none,
    gazetteer := .ok [wGazRecord], min_token_score := 3 }

def cex2A : GazRecord :=
  { official_name := "Qqq", latitude := 0, longitude := 0,
    county_name := some "king", feature_type := none, alternative_names := [],
    normalized := { normalized := "qqq", tokens := ["qqq"], countyHint := none },
    tokens := ["qqq"] }

def cex2B : GazRecord :=
  { official_name := "Zzz", latitude := 0, longitude := 0,
    county_name := some "pierce", feature_type := none, alternative_names := [],
    normalized := { normalized := "zzz", tokens := ["zzz"], countyHint := none },
    tokens := ["zzz"] }

def cex2Q : NormalizedQuery :=
  { normalized := "zzz", tokens := ["zzz"], countyHint := some "king" }

/-- C2 counterexample: narrowing by the hint `king` is non-empty
(it keeps `cex2A`), but the best token score stays below
`MIN_TOKEN_SCORE`, so the matcher falls back to fuzzy scoring over the
**full** record set and picks `cex2B`, whose `county_name` `pierce`
does not contain the hint.  The claim as stated is therefore false. -/

def w2Rec : GazRecord :=
  { official_name := "Lake X", latitude := 47, longitude := -122,
    county_name := some "King", feature_type := some "lake", alternative_names := [],
    normalized := { normalized := "lake x", tokens := ["lake", "x"], countyHint := none },
    tokens := ["lake", "x"] }

def w2Q : NormalizedQuery :=
  { normalized := "lake x", tokens := ["lake", "x"], countyHint := some "king" }

def w4Rec : GazRecord :=
  { official_name := "Lake X", latitude := 47, longitude := -122,
    county_name := none, feature_type := some "lake", alternative_names := [],
    normalized := { normalized := "lake x", tokens := ["lake", "x"], countyHint := none },
    tokens := ["lake", "x"] }

def w4Q : NormalizedQuery :=
  { normalized := "lake x", tokens := ["lake", "x"], countyHint := none }

def w4QEmpty : NormalizedQuery :=
  { normalized := "", tokens := [], countyHint := none }

/-! ## Theorems -/

/-! ### Claim C5: override precedence -/

/-- C5: if the trimmed raw name is a key of the override table, the
resolver returns that override's `official_name`, `lat` and `lng` with
`source = manual_override`, `matched_score = 2^53 - 1` and no strategy
field — for every gazetteer, every cache content and every
`explicit_county` argument. -/
theorem claim5_override_precedence (env : Env) (s : String) (county : Option String)
    (e : OverrideEntry) (hov : List.lookup (pyStrip s) env.overrides = some e)
    (ht : pyStrip s ≠ "") :
    (match_lake_name env (.str s) county).1 = .ok (overrideResult e) ∧
    (overrideResult e).officialName = some e.official_name ∧
    (overrideResult e).lat = some e.lat ∧
    (overrideResult e).lng = some e.lng ∧
    (overrideResult e).source = .manual_override ∧
    (overrideResult e).matched_score = 2 ^ 53 - 1 ∧
    (overrideResult e).strategy = none := by
  have hs : s ≠ "" := by
    intro h
    apply ht
    rw [h]
    rfl
  refine ⟨?_, rfl, rfl, rfl, rfl, by norm_num [overrideResult], rfl⟩
  simp [match_lake_name, hs, ht, manual_override_check, hov]

theorem claim5_override_precedence_witness :
    (match_lake_name wEnvBroken (.str " LEWIS CO PRK PD-S ") (some "Clark")).1 =
      .ok (overrideResult wOverrideEntry) ∧
    (overrideResult wOverrideEntry).officialName = some "South Lewis County Regional Park Pond" ∧
    (overrideResult wOverrideEntry).matched_score = 2 ^ 53 - 1 := by
  have h := claim5_override_precedence wEnvBroken " LEWIS CO PRK PD-S " (some "Clark")
    wOverrideEntry (by decide) (by decide)
  exact ⟨h.1, h.2.1, h.2.2.2.2.2.1⟩

/-! ### Claim C10: override hits touch neither the gazetteer nor the cache -/

/-- C10: on an override hit the facade performs no effect at all — no
cache read, no cache write, no gazetteer load — and succeeds even when
the gazetteer is missing or corrupt (`env.gazetteer` is arbitrary,
including `.error`) and whatever the cache backend would answer. -/
theorem claim10_override_frame (env : Env) (s : String) (county : Option String)
    (e : OverrideEntry) (hov : List.lookup (pyStrip s) env.overrides = some e)
    (ht : pyStrip s ≠ "") :
    (match_lake_name env (.str s) county).2 = [] ∧
    ∃ r, (match_lake_name env (.str s) county).1 = .ok r := by
  have hs : s ≠ "" := by
    intro h
    apply ht
    rw [h]
    rfl
  refine ⟨?_, overrideResult e, ?_⟩ <;>
    simp [match_lake_name, hs, ht, manual_override_check, hov]

theorem claim10_override_frame_witness :
    (match_lake_name wEnvBroken (.str "LEWIS CO PRK PD-S") none).2 = [] ∧
    ∃ r, (match_lake_name wEnvBroken (.str "LEWIS CO PRK PD-S") none).1 = .ok r :=
  claim10_override_frame wEnvBroken "LEWIS CO PRK PD-S" none wOverrideEntry
    (by decide) (by decide)

/-! ### Claim C7: invalid input -/

/-- C7 counterexample: the Normalizer does **not** fail on a non-string
input — `normalize_name` returns the empty `NormalizedQuery` (the
source's `isinstance` guard `return`s a value instead of raising), so
the claim "the Normalizer fails with InvalidInput" is false. -/
theorem claim7_counterexample :
    normalize_name .nonStr none = { normalized := "", tokens := [], countyHint := none } := rfl

/-- C7 amended: the facade surfaces `InvalidInput` for raw names that
are missing/not a string or empty after trimming, while the Normalizer
itself returns the empty query for non-string input rather than
failing. -/
theorem claim7_invalid_input :
    (∀ (env : Env) (county : Option String),
      (match_lake_name env .nonStr county).1 = .error .invalidInput) ∧
    (∀ (env : Env) (county : Option String) (s : String), pyStrip s = "" →
      (match_lake_name env (.str s) county).1 = .error .invalidInput) ∧
    (∀ explicit, normalize_name .nonStr explicit =
      { normalized := "", tokens := [], countyHint := none }) := by
  refine ⟨fun env county => rfl, fun env county s hst => ?_, fun explicit => rfl⟩
  by_cases hs : s = ""
  · simp [match_lake_name, hs]
  · simp [match_lake_name, hs, hst]

theorem claim7_invalid_input_witness :
    (match_lake_name wEnvBroken .nonStr none).1 = .error .invalidInput ∧
    (match_lake_name wEnvBroken (.str "   ") none).1 = .error .invalidInput :=
  ⟨claim7_invalid_input.1 wEnvBroken none,
   claim7_invalid_input.2.1 wEnvBroken none "   " (by decide)⟩

/-! ### Claim C8: explicit county argument -/

/-- C8 counterexample: `explicit_county = "123"` is present and
non-empty, yet the resulting hint is the one detected inside the raw
name (`snohomish`), because `_normalize_county_input("123")` normalizes
to empty and the source's `or` then falls back to detection.  The claim
as stated ("derived from explicit_county, overriding any hint detected
inside the raw name") is false for this input. -/
theorem claim8_counterexample :
    (normalize_name (.str "SUNSET LK (SNOH)") (some "123")).countyHint = some "snohomish" ∧
    normalizeCountyInput (some "123") = none ∧
    ("123" : String) ≠ "" := by
  refine ⟨by decide, rfl, by decide⟩

/-- C8 amended: the `explicit_county` argument overrides detection
whenever its normalization (lowercase, strip `county`/`cnty`, drop
non-alphabetic characters, collapse whitespace) is non-empty; when that
normalization is empty the detected hint is used instead. -/
theorem claim8_explicit_county (raw : String) (explicit : String) (h : String)
    (hx : normalizeCountyInput (some explicit) = some h) :
    (normalize_name (.str raw) (some explicit)).countyHint = some h := by
  simp [normalize_name, normalizeQ, hx]

theorem claim8_explicit_county_witness :
    (normalize_name (.str "X (KING)") (some "Pierce County")).countyHint = some "pierce" :=
  claim8_explicit_county "X (KING)" "Pierce County" "pierce" rfl

/-! ### Claim C9: the county-code table -/

/-- C9 counterexample: the county-code table does not have 39 entries —
it has 38 (Columbia county has no code in the source). -/
theorem claim9_counterexample : COUNTY_ABBREVIATIONS.length ≠ 39 := by decide

/-- C9 amended: the county-code table is a fixed mapping with exactly
38 entries (Columbia county is absent, so it is not one-per-county of
the 39 counties of the target state), including `SNOH → snohomish`,
`PEND → pend oreille` and `GRAY → grays harbor`; it backs both county
hint detection and token expansion. -/
theorem claim9_county_table :
    COUNTY_ABBREVIATIONS.length = 38 ∧
    List.lookup "SNOH" COUNTY_ABBREVIATIONS = some "snohomish" ∧
    List.lookup "PEND" COUNTY_ABBREVIATIONS = some "pend oreille" ∧
    List.lookup "GRAY" COUNTY_ABBREVIATIONS = some "grays harbor" ∧
    detectCountyHint "(SNOH)" = some "snohomish" ∧
    normalizeToken "snoh" = ["snohomish"] := by decide

/-! ### Claim C3: the token score formula -/

theorem exactPassAux_fst (Q : List String) (l : List (ℕ × String)) :
    ∀ (acc : ℕ) (used : List ℕ),
      (exactPassAux Q l acc used).1 = acc + l.countP (fun p => decide (p.2 ∈ Q)) := by
  induction l with
  | nil => intro acc used; simp [exactPassAux]
  | cons p rest ih =>
    intro acc used
    by_cases h : p.2 ∈ Q
    · rw [show exactPassAux Q (p :: rest) acc used =
        exactPassAux Q rest (acc + 1) (p.1 :: used) from by simp [exactPassAux, h]]
      rw [ih, List.countP_cons]
      simp [h]
      omega
    · rw [show exactPassAux Q (p :: rest) acc used =
        exactPassAux Q rest acc used from by simp [exactPassAux, h]]
      rw [ih, List.countP_cons]
      simp [h]

theorem exactPassAux_used (Q : List String) (l : List (ℕ × String)) :
    ∀ (acc : ℕ) (used : List ℕ) (j : ℕ),
      (j ∈ (exactPassAux Q l acc used).2 ↔ j ∈ used ∨ ∃ p ∈ l, p.1 = j ∧ p.2 ∈ Q) := by
  induction l with
  | nil => intro acc used j; simp [exactPassAux]
  | cons p rest ih =>
    intro acc used j
    by_cases h : p.2 ∈ Q
    · rw [show exactPassAux Q (p :: rest) acc used =
        exactPassAux Q rest (acc + 1) (p.1 :: used) from by simp [exactPassAux, h]]
      rw [ih]
      constructor
      · rintro (hj | hex)
        · rcases List.mem_cons.mp hj with he | hu
          · exact Or.inr ⟨p, List.mem_cons_self p rest, he.symm, h⟩
          · exact Or.inl hu
        · obtain ⟨q, hq, hq1, hq2⟩ := hex
          exact Or.inr ⟨q, List.mem_cons_of_mem p hq, hq1, hq2⟩
      · rintro (hj | hex)
        · exact Or.inl (List.mem_cons_of_mem _ hj)
        · obtain ⟨q, hq, hq1, hq2⟩ := hex
          rcases List.mem_cons.mp hq with he | hr
          · exact Or.inl (List.mem_cons.mpr (Or.inl (he ▸ hq1).symm))
          · exact Or.inr ⟨q, hr, hq1, hq2⟩
    · rw [show exactPassAux Q (p :: rest) acc used =
        exactPassAux Q rest acc used from by simp [exactPassAux, h]]
      rw [ih]
      constructor
      · rintro (hj | hex)
        · exact Or.inl hj
        · obtain ⟨q, hq, hq1, hq2⟩ := hex
          exact Or.inr ⟨q, List.mem_cons_of_mem p hq, hq1, hq2⟩
      · rintro (hj | hex)
        · exact Or.inl hj
        · obtain ⟨q, hq, hq1, hq2⟩ := hex
          rcases List.mem_cons.mp hq with he | hr
          · exact absurd hq2 (he ▸ h)
          · exact Or.inr ⟨q, hr, hq1, hq2⟩

theorem partCountAux_eq (Q : List String) (l : List (ℕ × String)) :
    ∀ (used : List ℕ), (∀ p ∈ l, (p.1 ∈ used ↔ p.2 ∈ Q)) → (l.map Prod.fst).Nodup →
      partCountAux Q l used =
        l.countP (fun p => !decide (p.2 ∈ Q) && Q.any (fun q => tokensPartMatch q p.2)) := by
  induction l with
  | nil => intro used _ _; simp [partCountAux]
  | cons p rest ih =>
    intro used hused hnd
    have hndr : (rest.map Prod.fst).Nodup := (List.nodup_cons.mp (by simpa using hnd)).2
    have hp1 : p.1 ∉ rest.map Prod.fst := (List.nodup_cons.mp (by simpa using hnd)).1
    by_cases hi : p.1 ∈ used
    · have hq : p.2 ∈ Q := (hused p (List.mem_cons_self p rest)).mp hi
      rw [show partCountAux Q (p :: rest) used = partCountAux Q rest used from by
        simp [partCountAux, hi]]
      rw [ih used (fun q hq' => hused q (List.mem_cons_of_mem p hq')) hndr, List.countP_cons]
      simp [hq]
    · have hq : p.2 ∉ Q := fun hq => hi ((hused p (List.mem_cons_self p rest)).mpr hq)
      by_cases hany : Q.any (fun q => tokensPartMatch q p.2)
      · rw [show partCountAux Q (p :: rest) used =
          partCountAux Q rest (p.1 :: used) + 1 from by simp [partCountAux, hi, hany]]
        have hrest : ∀ q ∈ rest, (q.1 ∈ p.1 :: used ↔ q.2 ∈ Q) := by
          intro q hqr
          have hne : q.1 ≠ p.1 := by
            intro he
            exact hp1 (he ▸ List.mem_map_of_mem Prod.fst hqr)
          rw [List.mem_cons]
          constructor
          · rintro (he | hu)
            · exact absurd he hne
            · exact (hused q (List.mem_cons_of_mem p hqr)).mp hu
          · intro hqQ
            exact Or.inr ((hused q (List.mem_cons_of_mem p hqr)).mpr hqQ)
        rw [ih (p.1 :: used) hrest hndr, List.countP_cons]
        simp [hq, hany]
      · rw [show partCountAux Q (p :: rest) used = partCountAux Q rest used from by
          simp [partCountAux, hi, hany]]
        rw [ih used (fun q hq' => hused q (List.mem_cons_of_mem p hq')) hndr, List.countP_cons]
        simp [hany]

theorem countP_enum_snd (C : List String) (g : String → Bool) :
    C.enum.countP (fun p => g p.2) = C.countP g := by
  have h := List.countP_map g Prod.snd C.enum
  rw [List.enum_map_snd] at h
  exact h.symm

theorem computeTokenScore_formula (Q : List String) (qs : String) (C : List String) :
    computeTokenScore Q qs C =
      if Q = [] ∨ C = [] then none
      else some (3 * (C.countP (fun c => decide (c ∈ Q)) : ℤ) +
        (C.countP (fun c => !decide (c ∈ Q) && Q.any (fun q => tokensPartMatch q c)) : ℤ) -
        min (levenshtein qs (joinSpace C) : ℤ) 10) := by
  by_cases h : Q = [] ∨ C = []
  · simp [computeTokenScore, h]
  · have hfst : (C.enum.map Prod.fst).Nodup := by
      rw [List.enum_map_fst]
      exact List.nodup_range C.length
    have hused : ∀ p ∈ C.enum, (p.1 ∈ (exactPassAux Q C.enum 0 []).2 ↔ p.2 ∈ Q) := by
      intro p hp
      rw [exactPassAux_used]
      constructor
      · rintro (hf | ⟨q, hq, hq1, hq2⟩)
        · exact absurd hf (List.not_mem_nil p.1)
        · have heq : q = p := List.inj_on_of_nodup_map hfst hq hp hq1
          exact heq ▸ hq2
      · intro hpQ
        exact Or.inr ⟨p, hp, rfl, hpQ⟩
    simp only [computeTokenScore, h, if_false]
    rw [partCountAux_eq Q C.enum _ hused hfst, exactPassAux_fst]
    rw [countP_enum_snd C (fun c => decide (c ∈ Q)),
      countP_enum_snd C (fun c => !decide (c ∈ Q) && Q.any (fun q => tokensPartMatch q c))]
    congr 1
    push_cast
    ring

/-- C3: for non-empty query and candidate token lists the token score
equals `3·E + P − min(levenshtein(qs, cs), 10)` where `cs` joins the
candidate tokens with single spaces, `E` counts candidate positions
whose token occurs exactly in the query token list, and `P` counts the
remaining candidate positions whose token `c` has some query token `q`
with `q ≠ c`, `len(q) ≥ 3`, `len(c) ≥ 3` and one a substring of the
other (at most one partial credit per candidate position, which is what
`countP` over positions expresses); if either token list is empty the
score is `-inf` (`none`). -/
theorem claim3_token_score_formula (Q : List String) (qs : String) (C : List String) :
    computeTokenScore Q qs C =
      if Q = [] ∨ C = [] then none
      else some (3 * (C.countP (fun c => decide (c ∈ Q)) : ℤ) +
        (C.countP (fun c => !decide (c ∈ Q) && Q.any (fun q => tokensPartMatch q c)) : ℤ) -
        min (levenshtein qs (joinSpace C) : ℤ) 10) :=
  computeTokenScore_formula Q qs C

/-! ### Matcher loop invariants -/

theorem pickBetter_some (r : GazRecord) (s : Option ℤ) (b : Option (GazRecord × Option ℤ))
    (p : GazRecord × Option ℤ) (h : pickBetter r s b = some p) : p = (r, s) ∨ b = some p := by
  cases b with
  | none => exact Or.inl (Option.some.inj h).symm
  | some p0 =>
    have h' : (if scoreLt p0.2 s then some (r, s) else some p0) = some p := h
    by_cases hlt : scoreLt p0.2 s
    · rw [if_pos hlt] at h'
      exact Or.inl (Option.some.inj h').symm
    · rw [if_neg hlt] at h'
      exact Or.inr h'

theorem scanRecord_fold_spec (Q : List String) (qs : String) (hint : Option String)
    (r : GazRecord) (tss : List (List String)) :
    ∀ (b : Option (GazRecord × Option ℤ)) (p : GazRecord × Option ℤ),
      tss.foldl (fun b ts => pickBetter r (tsScore Q qs hint r ts) b) b = some p →
      b = some p ∨ ∃ ts ∈ tss, p = (r, tsScore Q qs hint r ts) := by
  induction tss with
  | nil => intro b p h; exact Or.inl h
  | cons ts rest ih =>
    intro b p h
    rw [List.foldl_cons] at h
    rcases ih _ p h with hb | ⟨ts', hts', hp⟩
    · rcases pickBetter_some r _ b p hb with hp | hb'
      · exact Or.inr ⟨ts, List.mem_cons_self ts rest, hp⟩
      · exact Or.inl hb'
    · exact Or.inr ⟨ts', List.mem_cons_of_mem ts hts', hp⟩

theorem bestTokenMatch_fold_spec (Q : List String) (qs : String) (hint : Option String)
    (cands : List GazRecord) :
    ∀ (b : Option (GazRecord × Option ℤ)) (p : GazRecord × Option ℤ),
      cands.foldl (scanRecord Q qs hint) b = some p →
      b = some p ∨ ∃ r ∈ cands, ∃ ts ∈ tokenSets r, p = (r, tsScore Q qs hint r ts) := by
  induction cands with
  | nil => intro b p h; exact Or.inl h
  | cons r rest ih =>
    intro b p h
    rw [List.foldl_cons] at h
    rcases ih _ p h with hb | ⟨r', hr', ts, hts, hp⟩
    · rcases scanRecord_fold_spec Q qs hint r (tokenSets r) b p hb with hb' | ⟨ts, hts, hp⟩
      · exact Or.inl hb'
      · exact Or.inr ⟨r, List.mem_cons_self r rest, ts, hts, hp⟩
    · exact Or.inr ⟨r', List.mem_cons_of_mem r hr', ts, hts, hp⟩

theorem bestTokenMatch_spec (Q : List String) (qs : String) (hint : Option String)
    (cands : List GazRecord) (p : GazRecord × Option ℤ)
    (h : bestTokenMatch Q qs hint cands = some p) :
    ∃ r ∈ cands, ∃ ts ∈ tokenSets r, p = (r, tsScore Q qs hint r ts) := by
  rcases bestTokenMatch_fold_spec Q qs hint cands none p h with hb | hex
  · cases hb
  · exact hex

theorem fuzzyStep_some (qs : String) (b : Option (GazRecord × ℤ)) (r : GazRecord)
    (p : GazRecord × ℤ) (h : fuzzyStep qs b r = some p) :
    p = (r, fuzzyScore qs r) ∨ b = some p := by
  cases b with
  | none => exact Or.inl (Option.some.inj h).symm
  | some p0 =>
    have h' : (if p0.2 < fuzzyScore qs r then some (r, fuzzyScore qs r) else some p0) = some p := h
    by_cases hlt : p0.2 < fuzzyScore qs r
    · rw [if_pos hlt] at h'
      exact Or.inl (Option.some.inj h').symm
    · rw [if_neg hlt] at h'
      exact Or.inr h'

theorem fuzzyFold_spec (qs : String) (l : List GazRecord) :
    ∀ (b : Option (GazRecord × ℤ)) (p : GazRecord × ℤ),
      l.foldl (fuzzyStep qs) b = some p → b = some p ∨ ∃ r ∈ l, p = (r, fuzzyScore qs r) := by
  induction l with
  | nil => intro b p h; exact Or.inl h
  | cons r rest ih =>
    intro b p h
    rw [List.foldl_cons] at h
    rcases ih _ p h with hb | ⟨r', hr', hp⟩
    · rcases fuzzyStep_some qs b r p hb with hp | hb'
      · exact Or.inr ⟨r, List.mem_cons_self r rest, hp⟩
      · exact Or.inl hb'
    · exact Or.inr ⟨r', List.mem_cons_of_mem r hr', hp⟩

theorem fuzzyFold_isSome (qs : String) (l : List GazRecord) :
    ∀ (b : Option (GazRecord × ℤ)), b.isSome = true ∨ l ≠ [] →
      (l.foldl (fuzzyStep qs) b).isSome = true := by
  induction l with
  | nil =>
    intro b hb
    rcases hb with hb | hb
    · exact hb
    · exact absurd rfl hb
  | cons r rest ih =>
    intro b _
    rw [List.foldl_cons]
    apply ih
    left
    cases b with
    | none => rfl
    | some p0 =>
      show (if p0.2 < fuzzyScore qs r then some (r, fuzzyScore qs r) else some p0).isSome = true
      by_cases hlt : p0.2 < fuzzyScore qs r
      · rw [if_pos hlt]; rfl
      · rw [if_neg hlt]; rfl

theorem fuzzyFallback_spec (records : List GazRecord) (qs : String) (m : MatchResult)
    (h : fuzzyFallback records qs = some m) :
    ∃ r ∈ records, m.officialName = some r.official_name ∧
      m.matched_score = fuzzyScore qs r ∧ m.strategy = some Strategy.fuzzy := by
  unfold fuzzyFallback at h
  cases hf : records.foldl (fuzzyStep qs) none with
  | none => rw [hf] at h; cases h
  | some p =>
    rw [hf] at h
    rcases fuzzyFold_spec qs records none p hf with hb | ⟨r, hr, hp⟩
    · cases hb
    · have hm := (Option.some.inj h).symm
      subst hp
      refine ⟨r, hr, ?_, ?_, ?_⟩ <;> (rw [hm]; rfl)

theorem fuzzyFallback_total (records : List GazRecord) (qs : String) (hne : records ≠ []) :
    ∃ m, fuzzyFallback records qs = some m ∧ m.officialName.isSome = true ∧
      m.strategy = some Strategy.fuzzy := by
  have h := fuzzyFold_isSome qs records none (Or.inr hne)
  obtain ⟨p, hp⟩ := Option.isSome_iff_exists.mp h
  refine ⟨fuzzyResult p, ?_, rfl, rfl⟩
  unfold fuzzyFallback
  rw [hp, Option.map_some']

/-! ### Claim C1: the fuzzy floor -/

theorem find_matching_lake_total (ms : ℤ) (records : List GazRecord) (q : NormalizedQuery)
    (hne : records ≠ []) :
    ∃ r, find_matching_lake ms records q = some r ∧ r.officialName.isSome = true := by
  obtain ⟨m, hm, hmo, _⟩ := fuzzyFallback_total records q.normalized hne
  unfold find_matching_lake
  cases hbest : bestTokenMatch q.tokens q.normalized q.countyHint
      (narrowRecords records q.countyHint) with
  | none => exact ⟨m, by simp only [hbest, hm], hmo⟩
  | some p =>
    obtain ⟨r, s⟩ := p
    cases s with
    | none => exact ⟨m, by simp only [hbest, hm], hmo⟩
    | some n =>
      by_cases hms : ms ≤ n
      · exact ⟨tokenResult r n, by simp only [hbest, if_pos hms], rfl⟩
      · exact ⟨m, by simp only [hbest, if_neg hms, hm], hmo⟩

theorem runMatcher_fst_indep (env : Env) (q : NormalizedQuery) (key : String)
    (tr tr' : List Effect) : (runMatcher env q key tr).1 = (runMatcher env q key tr').1 := by
  unfold runMatcher
  cases env.gazetteer with
  | error e => rfl
  | ok records =>
    show (runMatcherLoaded env.min_token_score records q key tr).1 =
      (runMatcherLoaded env.min_token_score records q key tr').1
    unfold runMatcherLoaded
    cases find_matching_lake env.min_token_score records q <;> rfl

theorem match_lake_name_live_fst (env : Env) (s : String) (county : Option String)
    (ht : pyStrip s ≠ "") (hov : List.lookup (pyStrip s) env.overrides = none)
    (hc : ∀ k, env.cacheGet k = none) :
    (match_lake_name env (.str s) county).1 =
      (runMatcher env (normalize_name (.str (pyStrip s)) county)
        (buildCacheKey (pyStrip s) (normalize_name (.str (pyStrip s)) county).countyHint) []).1 := by
  have hs : s ≠ "" := fun h => ht (by rw [h]; rfl)
  simp only [match_lake_name, if_neg hs, if_neg ht, manual_override_check, hov,
    Option.map_none', hc]
  cases hch : (normalize_name (.str (pyStrip s)) county).countyHint with
  | none => exact runMatcher_fst_indep env _ _ _ _
  | some h =>
    by_cases hh : h = ""
    · simp only [if_pos hh]
      exact runMatcher_fst_indep env _ _ _ _
    · simp only [if_neg hh, hc]
      exact runMatcher_fst_indep env _ _ _ _

/-- C1: the fuzzy fallback is the floor of the system.
`find_matching_lake` returns `none` only when the gazetteer record list
is empty: for every non-empty record list and every query it returns a
`MatchResult` whose `officialName` is non-null; consequently the facade,
on a valid input that hits neither the override table nor the cache,
returns a result with a non-null `officialName` whenever the gazetteer
is non-empty. -/
theorem claim1_fuzzy_floor :
    (∀ (ms : ℤ) (records : List GazRecord) (q : NormalizedQuery), records ≠ [] →
      ∃ r, find_matching_lake ms records q = some r ∧ r.officialName.isSome = true) ∧
    (∀ (env : Env) (s : String) (county : Option String) (records : List GazRecord),
      env.gazetteer = .ok records → records ≠ [] → pyStrip s ≠ "" →
      List.lookup (pyStrip s) env.overrides = none →
      (∀ k, env.cacheGet k = none) →
      ∃ r, (match_lake_name env (.str s) county).1 = .ok r ∧ r.officialName.isSome = true) := by
  refine ⟨find_matching_lake_total, ?_⟩
  intro env s county records hg hne ht hov hc
  obtain ⟨r, hr, hro⟩ :=
    find_matching_lake_total env.min_token_score records (normalize_name (.str (pyStrip s)) county) hne
  refine ⟨r, ?_, hro⟩
  rw [match_lake_name_live_fst env s county ht hov hc]
  unfold runMatcher
  rw [hg]
  show (runMatcherLoaded env.min_token_score records
    (normalize_name (.str (pyStrip s)) county)
    (buildCacheKey (pyStrip s) (normalize_name (.str (pyStrip s)) county).countyHint) []).1 = .ok r
  unfold runMatcherLoaded
  rw [hr]

theorem claim1_fuzzy_floor_witness :
    ∃ r, (match_lake_name wEnvLive (.str "Zzzyx nonexistent waterbody") none).1 = .ok r ∧
      r.officialName.isSome = true :=
  claim1_fuzzy_floor.2 wEnvLive "Zzzyx nonexistent waterbody" none [wGazRecord]
    rfl (by decide) (by decide) (by decide) (fun k => rfl)

/-! ### Claim C2: county narrowing -/

theorem claim2_counterexample :
    cex2Q.countyHint = some "king" ∧
    List.filter (fun (rec : GazRecord) => countyFilter "king" rec.county_name)
      [cex2A, cex2B] = [cex2A] ∧
    find_matching_lake 3 [cex2A, cex2B] cex2Q = some (fuzzyResult (cex2B, 20)) ∧
    (fuzzyResult (cex2B, 20)).officialName = some "Zzz" ∧
    cex2B.county_name = some "pierce" ∧
    hasSubStr (pyLowerStr "king") (pyLowerStr "pierce") = false ∧
    countyFilter "king" cex2B.county_name = false :=
  ⟨rfl, by decide, by decide, rfl, rfl, by decide, by decide⟩

/-- Unfolding lemma for `find_matching_lake` (the `let` bindings
zeta-reduce away). -/
theorem find_matching_lake_eq (ms : ℤ) (records : List GazRecord) (q : NormalizedQuery) :
    find_matching_lake ms records q =
      match bestTokenMatch q.tokens q.normalized q.countyHint
          (narrowRecords records q.countyHint) with
      | some (r, some n) => if ms ≤ n then some (tokenResult r n)
          else fuzzyFallback records q.normalized
      | some (_, none) => fuzzyFallback records q.normalized
      | none => fuzzyFallback records q.normalized := rfl

/-- C2 amended: when the county hint narrows to a non-empty candidate
set **and the matcher answers with the token strategy**, the chosen
record's `county_name` contains the hint as a substring
(case-insensitively); the fuzzy fallback, which runs over the full
record set when the best token score misses `MIN_TOKEN_SCORE`, is
exempt from this guarantee. -/
theorem claim2_county_narrowing (ms : ℤ) (records : List GazRecord) (q : NormalizedQuery)
    (h : String) (r : MatchResult)
    (hch : q.countyHint = some h) (hne : h ≠ "")
    (hnarrow : records.filter (fun (rec : GazRecord) => countyFilter h rec.county_name) ≠ [])
    (hfind : find_matching_lake ms records q = some r)
    (hstrat : r.strategy = some Strategy.token) :
    ∃ cn, r.county_name = some cn ∧ hasSubStr (pyLowerStr h) (pyLowerStr cn) = true := by
  rw [find_matching_lake_eq, hch] at hfind
  have hcand : narrowRecords records (some h) =
      records.filter (fun (rec : GazRecord) => countyFilter h rec.county_name) := by
    show (if h = "" then records
      else
        let narrowed := List.filter (fun (r : GazRecord) => countyFilter h r.county_name) records
        if narrowed = [] then records else narrowed) = _
    rw [if_neg hne]
    exact if_neg hnarrow
  rw [hcand] at hfind
  cases hb : bestTokenMatch q.tokens q.normalized (some h)
      (records.filter (fun (rec : GazRecord) => countyFilter h rec.county_name)) with
  | none =>
    rw [hb] at hfind
    obtain ⟨rec, _, _, _, hstrat'⟩ := fuzzyFallback_spec _ _ _ hfind
    rw [hstrat'] at hstrat
    cases hstrat
  | some p =>
    rw [hb] at hfind
    obtain ⟨rec, s⟩ := p
    obtain ⟨rec', hrec', ts, hts, hp⟩ := bestTokenMatch_spec _ _ _ _ _ hb
    have hrec : rec = rec' := congrArg Prod.fst hp
    cases s with
    | none =>
      have hfind' : fuzzyFallback records q.normalized = some r := hfind
      obtain ⟨rec₀, _, _, _, hstrat'⟩ := fuzzyFallback_spec _ _ _ hfind'
      rw [hstrat'] at hstrat
      cases hstrat
    | some n =>
      have hfind' : (if ms ≤ n then some (tokenResult rec n)
          else fuzzyFallback records q.normalized) = some r := hfind
      by_cases hms : ms ≤ n
      · rw [if_pos hms] at hfind'
        have hr : r = tokenResult rec n := (Option.some.inj hfind').symm
        have hfilter := (List.mem_filter.mp (hrec ▸ hrec' : rec ∈ _)).2
        unfold countyFilter at hfilter
        cases hcn : rec.county_name with
        | none => rw [hcn] at hfilter; cases hfilter
        | some cn =>
          rw [hcn] at hfilter
          refine ⟨cn, ?_, ?_⟩
          · rw [hr]
            exact hcn
          · exact ((Bool.and_eq_true _ _).mp hfilter).2
      · rw [if_neg hms] at hfind'
        obtain ⟨rec₀, _, _, _, hstrat'⟩ := fuzzyFallback_spec _ _ _ hfind'
        rw [hstrat'] at hstrat
        cases hstrat

theorem claim2_county_narrowing_witness :
    ∃ cn, (tokenResult w2Rec 8).county_name = some cn ∧
      hasSubStr (pyLowerStr "king") (pyLowerStr cn) = true :=
  claim2_county_narrowing 3 [w2Rec] w2Q "king" (tokenResult w2Rec 8)
    rfl (by decide) (by decide) (by decide) rfl

/-! ### Claim C4: score bounds -/

theorem countyBoost_bounds (ic cc : Option String) :
    0 ≤ countyBoost ic cc ∧ countyBoost ic cc ≤ 2 := by
  cases ic with
  | none => cases cc <;> exact ⟨le_refl 0, by show (0:ℤ) ≤ 2; norm_num⟩
  | some a =>
    cases cc with
    | none => exact ⟨le_refl 0, by show (0:ℤ) ≤ 2; norm_num⟩
    | some b =>
      show 0 ≤ (if a ≠ "" ∧ b ≠ "" then
          (if hasSubStr (pyLowerStr a) (pyLowerStr b) then 2 else 0) else 0 : ℤ) ∧
        (if a ≠ "" ∧ b ≠ "" then
          (if hasSubStr (pyLowerStr a) (pyLowerStr b) then 2 else 0) else 0 : ℤ) ≤ 2
      by_cases h1 : a ≠ "" ∧ b ≠ ""
      · rw [if_pos h1]
        by_cases h2 : hasSubStr (pyLowerStr a) (pyLowerStr b) = true
        · rw [if_pos h2]
          norm_num
        · rw [if_neg h2]
          norm_num
      · rw [if_neg h1]
        norm_num

theorem tsScore_le (Q : List String) (qs : String) (hint : Option String) (rec : GazRecord)
    (ts : List String) (n : ℤ) (h : tsScore Q qs hint rec ts = some n) :
    n ≤ 3 * (ts.length : ℤ) + (ts.length : ℤ) + 2 := by
  unfold tsScore addBoost at h
  cases hc : computeTokenScore Q qs ts with
  | none => rw [hc] at h; cases h
  | some m =>
    rw [hc, Option.map_some'] at h
    have hn : m + countyBoost hint rec.county_name = n := Option.some.inj h
    have hform := computeTokenScore_formula Q qs ts
    rw [hc] at hform
    by_cases hemp : Q = [] ∨ ts = []
    · rw [if_pos hemp] at hform
      cases hform
    · rw [if_neg hemp] at hform
      have hm := Option.some.inj hform
      have hE : ts.countP (fun c => decide (c ∈ Q)) ≤ ts.length := List.countP_le_length _
      have hP : ts.countP (fun c => !decide (c ∈ Q) &&
          Q.any (fun q => tokensPartMatch q c)) ≤ ts.length := List.countP_le_length _
      have hB := countyBoost_bounds hint rec.county_name
      have hL : (0:ℤ) ≤ min (levenshtein qs (joinSpace ts) : ℤ) 10 :=
        le_min (Int.ofNat_nonneg _) (by norm_num)
      omega

theorem fuzzyScore_bounds (qs : String) (r : GazRecord) :
    1 ≤ fuzzyScore qs r ∧ fuzzyScore qs r ≤ 20 := by
  unfold fuzzyScore
  refine ⟨le_max_left 1 _, max_le (by norm_num) ?_⟩
  have h : (0:ℤ) ≤ (levenshtein qs (fuzzyNorm r) : ℤ) := Int.ofNat_nonneg _
  omega

/-- C4: score bounds per provenance.  A token-strategy result's score
lies in `[MIN_TOKEN_SCORE, 3·|C| + |C| + 2]` where `C` is the winning
candidate token vector (the score equation identifies it); a
fuzzy-strategy result's score lies in `[1, 20]`; a manual-override
result's score equals `2^53 - 1`. -/
theorem claim4_score_bounds :
    (∀ (ms : ℤ) (records : List GazRecord) (q : NormalizedQuery) (r : MatchResult),
      find_matching_lake ms records q = some r → r.strategy = some Strategy.token →
      ms ≤ r.matched_score ∧
      ∃ rec ∈ narrowRecords records q.countyHint, ∃ ts ∈ tokenSets rec,
        tsScore q.tokens q.normalized q.countyHint rec ts = some r.matched_score ∧
        r.matched_score ≤ 3 * (ts.length : ℤ) + (ts.length : ℤ) + 2) ∧
    (∀ (ms : ℤ) (records : List GazRecord) (q : NormalizedQuery) (r : MatchResult),
      find_matching_lake ms records q = some r → r.strategy = some Strategy.fuzzy →
      1 ≤ r.matched_score ∧ r.matched_score ≤ 20) ∧
    (∀ (overrides : List (String × OverrideEntry)) (name : String) (r : MatchResult),
      manual_override_check overrides name = some r → r.matched_score = 2 ^ 53 - 1) := by
  refine ⟨?_, ?_, ?_⟩
  · intro ms records q r hfind hstrat
    rw [find_matching_lake_eq] at hfind
    cases hb : bestTokenMatch q.tokens q.normalized q.countyHint
        (narrowRecords records q.countyHint) with
    | none =>
      rw [hb] at hfind
      obtain ⟨rec₀, _, _, _, hstrat'⟩ := fuzzyFallback_spec _ _ _ hfind
      rw [hstrat'] at hstrat
      cases hstrat
    | some p =>
      rw [hb] at hfind
      obtain ⟨rec, s⟩ := p
      obtain ⟨rec', hrec', ts, hts, hp⟩ := bestTokenMatch_spec _ _ _ _ _ hb
      have hrec : rec = rec' := congrArg Prod.fst hp
      have hs : s = tsScore q.tokens q.normalized q.countyHint rec' ts := congrArg Prod.snd hp
      cases s with
      | none =>
        have hfind' : fuzzyFallback records q.normalized = some r := hfind
        obtain ⟨rec₀, _, _, _, hstrat'⟩ := fuzzyFallback_spec _ _ _ hfind'
        rw [hstrat'] at hstrat
        cases hstrat
      | some n =>
        have hfind' : (if ms ≤ n then some (tokenResult rec n)
            else fuzzyFallback records q.normalized) = some r := hfind
        by_cases hms : ms ≤ n
        · rw [if_pos hms] at hfind'
          have hr : r = tokenResult rec n := (Option.some.inj hfind').symm
          have hscore : r.matched_score = n := by rw [hr]; rfl
          refine ⟨by rw [hscore]; exact hms, rec', hrec', ts, hts, ?_, ?_⟩
          · rw [hscore]
            exact hs.symm
          · rw [hscore]
            exact tsScore_le _ _ _ _ _ _ hs.symm
        · rw [if_neg hms] at hfind'
          obtain ⟨rec₀, _, _, _, hstrat'⟩ := fuzzyFallback_spec _ _ _ hfind'
          rw [hstrat'] at hstrat
          cases hstrat
  · intro ms records q r hfind hstrat
    rw [find_matching_lake_eq] at hfind
    have hfz : ∀ (hf : fuzzyFallback records q.normalized = some r),
        1 ≤ r.matched_score ∧ r.matched_score ≤ 20 := by
      intro hf
      obtain ⟨rec₀, _, _, hsc, _⟩ := fuzzyFallback_spec _ _ _ hf
      rw [hsc]
      exact fuzzyScore_bounds q.normalized rec₀
    cases hb : bestTokenMatch q.tokens q.normalized q.countyHint
        (narrowRecords records q.countyHint) with
    | none =>
      rw [hb] at hfind
      exact hfz hfind
    | some p =>
      rw [hb] at hfind
      obtain ⟨rec, s⟩ := p
      cases s with
      | none => exact hfz hfind
      | some n =>
        have hfind' : (if ms ≤ n then some (tokenResult rec n)
            else fuzzyFallback records q.normalized) = some r := hfind
        by_cases hms : ms ≤ n
        · rw [if_pos hms] at hfind'
          have hr : r = tokenResult rec n := (Option.some.inj hfind').symm
          rw [hr] at hstrat
          cases hstrat
        · rw [if_neg hms] at hfind'
          exact hfz hfind'
  · intro overrides name r h
    unfold manual_override_check at h
    cases hlk : List.lookup name overrides with
    | none => rw [hlk] at h; cases h
    | some e =>
      rw [hlk, Option.map_some'] at h
      have hr : r = overrideResult e := (Option.some.inj h).symm
      rw [hr]
      norm_num [overrideResult]

theorem claim4_score_bounds_witness :
    (3 ≤ (tokenResult w4Rec 6).matched_score ∧
      ∃ rec ∈ narrowRecords [w4Rec] w4Q.countyHint, ∃ ts ∈ tokenSets rec,
        tsScore w4Q.tokens w4Q.normalized w4Q.countyHint rec ts =
          some (tokenResult w4Rec 6).matched_score ∧
        (tokenResult w4Rec 6).matched_score ≤ 3 * (ts.length : ℤ) + (ts.length : ℤ) + 2) ∧
    (1 ≤ (fuzzyResult (w4Rec, 14)).matched_score ∧
      (fuzzyResult (w4Rec, 14)).matched_score ≤ 20) ∧
    (overrideResult wOverrideEntry).matched_score = 2 ^ 53 - 1 :=
  ⟨claim4_score_bounds.1 3 [w4Rec] w4Q (tokenResult w4Rec 6) (by decide) rfl,
   claim4_score_bounds.2.1 3 [w4Rec] w4QEmpty (fuzzyResult (w4Rec, 14)) (by decide) rfl,
   claim4_score_bounds.2.2 wOverrides "LEWIS CO PRK PD-S" (overrideResult wOverrideEntry)
     (by decide)⟩

/-! ### Claim C6: idempotence of normalization -/

theorem char_toNat_ofNat (n : ℕ) (h : n < 55296) : (Char.ofNat n).toNat = n := by
  unfold Char.ofNat
  rw [dif_pos (Or.inl h)]
  show (UInt32.ofNatCore n _).toNat = n
  rfl

theorem char_eq_of_toNat (c d : Char) (h : c.toNat = d.toNat) : c = d :=
  Char.ext (UInt32.toNat.inj h)

theorem str_mk_eq_empty_iff (l : List Char) : (String.mk l) = "" ↔ l = [] := by
  constructor
  · intro h
    exact congrArg String.data h
  · intro h
    rw [h]

theorem pyLower_toNat_of_upper (c : Char) (h1 : 65 ≤ c.toNat) (h2 : c.toNat ≤ 90) :
    (pyLower c).toNat = c.toNat + 32 := by
  unfold pyLower
  rw [if_pos ⟨h1, h2⟩]
  exact char_toNat_ofNat _ (by omega)

theorem pyLower_eq_of_not_upper (c : Char) (h : ¬(65 ≤ c.toNat ∧ c.toNat ≤ 90)) :
    pyLower c = c := by
  unfold pyLower
  rw [if_neg h]

theorem isCleanChar_iff (c : Char) :
    isCleanChar c = true ↔ (97 ≤ c.toNat ∧ c.toNat ≤ 122) ∨ (48 ≤ c.toNat ∧ c.toNat ≤ 57) := by
  simp [isCleanChar, isLowerAlpha, isDigitChar, decide_eq_true_eq, Bool.or_eq_true]

theorem isPySpace_iff (c : Char) :
    isPySpace c = true ↔ c.toNat = 32 ∨ c.toNat = 9 ∨ c.toNat = 10 ∨ c.toNat = 13 ∨
      c.toNat = 11 ∨ c.toNat = 12 := by
  simp [isPySpace, decide_eq_true_eq]

theorem isAsciiAlnum_iff (c : Char) :
    isAsciiAlnum c = true ↔ (48 ≤ c.toNat ∧ c.toNat ≤ 57) ∨ (65 ≤ c.toNat ∧ c.toNat ≤ 90) ∨
      (97 ≤ c.toNat ∧ c.toNat ≤ 122) := by
  simp only [isAsciiAlnum, isDigitChar, isUpperAlpha, isLowerAlpha, decide_eq_true_eq,
    Bool.or_eq_true]
  tauto

theorem pyLower_of_clean (c : Char) (h : isCleanChar c = true) : pyLower c = c := by
  rw [isCleanChar_iff] at h
  exact pyLower_eq_of_not_upper c (by omega)

theorem isCleanChar_pyLower (c : Char) (h : isAsciiAlnum c = true) :
    isCleanChar (pyLower c) = true := by
  rw [isAsciiAlnum_iff] at h
  rw [isCleanChar_iff]
  rcases h with h | h | h
  · rw [pyLower_eq_of_not_upper c (by omega)]
    omega
  · rw [pyLower_toNat_of_upper c h.1 h.2]
    omega
  · rw [pyLower_eq_of_not_upper c (by omega)]
    omega

theorem pyLower_of_space (c : Char) (h : isPySpace c = true) : pyLower c = c := by
  rw [isPySpace_iff] at h
  exact pyLower_eq_of_not_upper c (by omega)

theorem pyLower_pyLower (c : Char) : pyLower (pyLower c) = pyLower c := by
  by_cases h : 65 ≤ c.toNat ∧ c.toNat ≤ 90
  · have h2 := pyLower_toNat_of_upper c h.1 h.2
    exact pyLower_eq_of_not_upper _ (by omega)
  · rw [pyLower_eq_of_not_upper c h, pyLower_eq_of_not_upper c h]

theorem pyLowerStr_idem (s : String) : pyLowerStr (pyLowerStr s) = pyLowerStr s := by
  unfold pyLowerStr
  show String.mk (List.map pyLower (List.map pyLower s.toList)) = _
  rw [List.map_map]
  congr 1
  exact List.map_congr_left (fun c _ => pyLower_pyLower c)

theorem pyLowerStr_of_clean (s : String) (h : ∀ c ∈ s.toList, isCleanChar c = true) :
    pyLowerStr s = s := by
  unfold pyLowerStr
  have h2 : List.map pyLower s.toList = List.map id s.toList :=
    List.map_congr_left (fun c hc => pyLower_of_clean c (h c hc))
  rw [h2, List.map_id]
  rfl

/-- Every character that `charMap` emits is clean or whitespace. -/
theorem charMap_chars (c : Char) : ∀ d ∈ charMap c, isCleanChar d = true ∨ isPySpace d = true := by
  intro d hd
  unfold charMap at hd
  by_cases h1 : c.toNat = 38
  · rw [if_pos h1] at hd
    fin_cases hd <;> simp [isCleanChar_iff, isPySpace_iff]
  · rw [if_neg h1] at hd
    by_cases h2 : c.toNat = 45 ∨ c.toNat = 95 ∨ c.toNat = 47
    · rw [if_pos h2] at hd
      fin_cases hd
      right; decide
    · rw [if_neg h2] at hd
      by_cases h3 : c.toNat = 40 ∨ c.toNat = 41
      · rw [if_pos h3] at hd
        fin_cases hd
        right; decide
      · rw [if_neg h3] at hd
        by_cases h4 : (isAsciiAlnum c || isPySpace c) = true
        · rw [if_pos h4] at hd
          fin_cases hd
          rcases (Bool.or_eq_true _ _).mp h4 with h5 | h5
          · left
            exact isCleanChar_pyLower c h5
          · right
            rw [pyLower_of_space c h5]
            exact h5
        · rw [if_neg h4] at hd
          fin_cases hd
          right; decide

theorem charNormalize_chars (l : List Char) :
    ∀ d ∈ charNormalize l, isCleanChar d = true ∨ isPySpace d = true := by
  intro d hd
  unfold charNormalize at hd
  obtain ⟨c, _, hdc⟩ := List.mem_flatMap.mp hd
  exact charMap_chars c d hdc

/-- `charNormalize` fixes strings of clean characters and spaces. -/
theorem charNormalize_id (l : List Char)
    (h : ∀ c ∈ l, isCleanChar c = true ∨ c = ' ') : charNormalize l = l := by
  induction l with
  | nil => rfl
  | cons c rest ih =>
    have hc := h c (List.mem_cons_self c rest)
    have hmap : charMap c = [c] := by
      rcases hc with hc | hc
      · rw [isCleanChar_iff] at hc
        unfold charMap
        rw [if_neg (by omega), if_neg (by omega), if_neg (by omega),
          if_pos (by rw [Bool.or_eq_true, isAsciiAlnum_iff]; left; omega)]
        rw [pyLower_of_clean c (by rw [isCleanChar_iff]; exact hc)]
      · subst hc
        decide
    show charMap c ++ charNormalize rest = c :: rest
    rw [hmap, ih (fun c hc => h c (List.mem_cons_of_mem _ hc))]
    rfl

theorem clean_not_space (c : Char) (h : isCleanChar c = true) : isPySpace c = false := by
  rw [isCleanChar_iff] at h
  by_contra hsp
  rw [Bool.not_eq_false, isPySpace_iff] at hsp
  omega

theorem str_eq_empty_of_toList (t : String) (h : t.toList = []) : t = "" := by
  have h2 : t = String.mk t.toList := rfl
  rw [h] at h2
  exact h2

theorem splitToksAux_cons_space_nil (c : Char) (cs : List Char) (h : isPySpace c = true) :
    splitToksAux (c :: cs) [] = splitToksAux cs [] := by
  show (if isPySpace c then splitToksAux cs [] else splitToksAux cs [c]) = splitToksAux cs []
  rw [if_pos h]

theorem splitToksAux_cons_space_cons (c : Char) (cs : List Char) (a : Char) (as : List Char)
    (h : isPySpace c = true) :
    splitToksAux (c :: cs) (a :: as) = String.mk (a :: as).reverse :: splitToksAux cs [] := by
  show (if isPySpace c then String.mk (a :: as).reverse :: splitToksAux cs []
    else splitToksAux cs (c :: a :: as)) = _
  rw [if_pos h]

theorem splitToksAux_cons_nospace (c : Char) (cs acc : List Char) (h : isPySpace c = false) :
    splitToksAux (c :: cs) acc = splitToksAux cs (c :: acc) := by
  have h2 : ¬(isPySpace c = true) := by rw [h]; exact Bool.false_ne_true
  cases acc with
  | nil =>
    show (if isPySpace c then splitToksAux cs [] else splitToksAux cs [c]) = _
    rw [if_neg h2]
  | cons a as =>
    show (if isPySpace c then String.mk (a :: as).reverse :: splitToksAux cs []
      else splitToksAux cs (c :: a :: as)) = _
    rw [if_neg h2]

/-- Tokens produced by splitting a clean-or-space character stream are
non-empty and consist of clean characters. -/
theorem splitToksAux_tokens (l : List Char) :
    ∀ (acc : List Char),
      (∀ c ∈ l, isCleanChar c = true ∨ isPySpace c = true) →
      (∀ c ∈ acc, isCleanChar c = true) →
      ∀ t ∈ splitToksAux l acc, t ≠ "" ∧ ∀ c ∈ t.toList, isCleanChar c = true := by
  induction l with
  | nil =>
    intro acc _ hacc t ht
    cases hacc2 : acc with
    | nil =>
      rw [hacc2] at ht
      cases ht
    | cons a as =>
      rw [hacc2] at ht
      have heq : t = String.mk (a :: as).reverse := List.mem_singleton.mp ht
      subst heq
      refine ⟨?_, ?_⟩
      · rw [Ne, str_mk_eq_empty_iff]
        simp
      · intro c hc
        have hc2 : c ∈ (a :: as).reverse := hc
        rw [List.mem_reverse] at hc2
        exact hacc c (hacc2 ▸ hc2)
  | cons c cs ih =>
    intro acc hl hacc t ht
    have hl2 : ∀ x ∈ cs, isCleanChar x = true ∨ isPySpace x = true :=
      fun x hx => hl x (List.mem_cons_of_mem _ hx)
    by_cases hsp : isPySpace c = true
    · cases hacc2 : acc with
      | nil =>
        rw [hacc2, splitToksAux_cons_space_nil c cs hsp] at ht
        exact ih [] hl2 (fun x hx => absurd hx (List.not_mem_nil x)) t ht
      | cons a as =>
        rw [hacc2, splitToksAux_cons_space_cons c cs a as hsp] at ht
        rcases List.mem_cons.mp ht with h1 | h1
        · subst h1
          refine ⟨?_, ?_⟩
          · rw [Ne, str_mk_eq_empty_iff]
            simp
          · intro x hx
            have hx2 : x ∈ (a :: as).reverse := hx
            rw [List.mem_reverse] at hx2
            exact hacc x (hacc2 ▸ hx2)
        · exact ih [] hl2 (fun x hx => absurd hx (List.not_mem_nil x)) t h1
    · have hsp2 : isPySpace c = false := Bool.of_not_eq_true hsp
      rw [splitToksAux_cons_nospace c cs acc hsp2] at ht
      have hcclean : isCleanChar c = true := by
        rcases hl c (List.mem_cons_self c cs) with h | h
        · exact h
        · exact absurd h hsp
      refine ih (c :: acc) hl2 ?_ t ht
      intro x hx
      rcases List.mem_cons.mp hx with h1 | h1
      · subst h1
        exact hcclean
      · exact hacc x h1

theorem splitToksAux_nospace (l : List Char) :
    ∀ (acc : List Char), (∀ c ∈ l, isPySpace c = false) → l ≠ [] →
      splitToksAux l acc = [String.mk (acc.reverse ++ l)] := by
  induction l with
  | nil => intro acc _ h; exact absurd rfl h
  | cons c cs ih =>
    intro acc hl _
    rw [splitToksAux_cons_nospace c cs acc (hl c (List.mem_cons_self c cs))]
    cases hcs : cs with
    | nil =>
      show [String.mk (c :: acc).reverse] = [String.mk (acc.reverse ++ [c])]
      rw [List.reverse_cons]
    | cons d ds =>
      rw [← hcs, ih (c :: acc) (fun x hx => hl x (List.mem_cons_of_mem _ hx))
        (by rw [hcs]; exact List.cons_ne_nil d ds)]
      rw [List.reverse_cons, List.append_assoc]
      rfl

theorem splitToksAux_append_space (l : List Char) :
    ∀ (acc rest : List Char), (∀ c ∈ l, isPySpace c = false) → (acc = [] → l ≠ []) →
      splitToksAux (l ++ ' ' :: rest) acc =
        String.mk (acc.reverse ++ l) :: splitToksAux rest [] := by
  induction l with
  | nil =>
    intro acc rest _ hne
    cases acc with
    | nil => exact absurd rfl (hne rfl)
    | cons a as =>
      rw [List.nil_append, splitToksAux_cons_space_cons ' ' rest a as (by decide)]
      rw [List.append_nil]
  | cons c cs ih =>
    intro acc rest hl _
    rw [List.cons_append,
      splitToksAux_cons_nospace c (cs ++ ' ' :: rest) acc (hl c (List.mem_cons_self c cs))]
    rw [ih (c :: acc) rest (fun x hx => hl x (List.mem_cons_of_mem _ hx))
      (fun h => absurd h (List.cons_ne_nil c acc))]
    rw [List.reverse_cons, List.append_assoc]
    rfl

/-- Splitting the space-joined list of non-empty space-free tokens
recovers the tokens. -/
theorem splitTokens_joinSpace (ts : List String)
    (h : ∀ t ∈ ts, t ≠ "" ∧ ∀ c ∈ t.toList, isPySpace c = false) :
    splitTokens (joinSpace ts).toList = ts := by
  induction ts with
  | nil => rfl
  | cons t rest ih =>
    obtain ⟨hne, hcl⟩ := h t (List.mem_cons_self t rest)
    have htne : t.toList ≠ [] := fun hh => hne (str_eq_empty_of_toList t hh)
    cases rest with
    | nil =>
      show splitToksAux t.toList [] = [t]
      rw [splitToksAux_nospace t.toList [] hcl htne]
      rfl
    | cons u us =>
      have htl : (joinSpace (t :: u :: us)).toList =
          (t.toList ++ [' ']) ++ (joinSpace (u :: us)).toList := rfl
      show splitTokens (joinSpace (t :: u :: us)).toList = _
      rw [htl, List.append_assoc, List.singleton_append]
      show splitToksAux (t.toList ++ ' ' :: (joinSpace (u :: us)).toList) [] = _
      rw [splitToksAux_append_space t.toList [] _ hcl (fun _ => htne)]
      have ih2 := ih (fun x hx => h x (List.mem_cons_of_mem _ hx))
      have ih3 : splitToksAux (joinSpace (u :: us)).toList [] = u :: us := ih2
      rw [ih3]
      rfl



theorem dedupTokens_cons_pos (x : String) (rest seen : List String) (h : x ≠ "" ∧ x ∉ seen) :
    dedupTokens (x :: rest) seen = x :: dedupTokens rest (x :: seen) := by
  show (if x ≠ "" ∧ x ∉ seen then x :: dedupTokens rest (x :: seen)
    else dedupTokens rest seen) = _
  rw [if_pos h]

theorem dedupTokens_cons_neg (x : String) (rest seen : List String) (h : ¬(x ≠ "" ∧ x ∉ seen)) :
    dedupTokens (x :: rest) seen = dedupTokens rest seen := by
  show (if x ≠ "" ∧ x ∉ seen then x :: dedupTokens rest (x :: seen)
    else dedupTokens rest seen) = _
  rw [if_neg h]

theorem dedupTokens_mem (l : List String) :
    ∀ (seen : List String) (t : String), t ∈ dedupTokens l seen → t ∈ l ∧ t ∉ seen ∧ t ≠ "" := by
  induction l with
  | nil => intro seen t ht; cases ht
  | cons x rest ih =>
    intro seen t ht
    by_cases hx : x ≠ "" ∧ x ∉ seen
    · rw [dedupTokens_cons_pos x rest seen hx] at ht
      rcases List.mem_cons.mp ht with h1 | h1
      · rw [h1]
        exact ⟨List.mem_cons_self x rest, hx.2, hx.1⟩
      · obtain ⟨h2, h3, h4⟩ := ih (x :: seen) t h1
        exact ⟨List.mem_cons_of_mem _ h2, fun hh => h3 (List.mem_cons_of_mem _ hh), h4⟩
    · rw [dedupTokens_cons_neg x rest seen hx] at ht
      obtain ⟨h2, h3, h4⟩ := ih seen t ht
      exact ⟨List.mem_cons_of_mem _ h2, h3, h4⟩

theorem dedupTokens_nodup (l : List String) : ∀ (seen : List String), (dedupTokens l seen).Nodup := by
  induction l with
  | nil => intro seen; exact List.nodup_nil
  | cons x rest ih =>
    intro seen
    by_cases hx : x ≠ "" ∧ x ∉ seen
    · rw [dedupTokens_cons_pos x rest seen hx]
      refine List.nodup_cons.mpr ⟨?_, ih (x :: seen)⟩
      intro hmem
      exact (dedupTokens_mem rest (x :: seen) x hmem).2.1 (List.mem_cons_self x seen)
    · rw [dedupTokens_cons_neg x rest seen hx]
      exact ih seen

theorem decide_mem_cons (a d : String) (seen : List String) :
    decide (a ∈ d :: seen) = (decide (a ∈ seen) || d == a) := by
  by_cases h : d = a
  · subst h
    simp [List.mem_cons]
  · have h2 : ¬(a = d) := fun hh => h hh.symm
    simp [List.mem_cons, h, h2]

theorem pendAdj_append (A B : List String) (hA : pendAdj A = true) (hB : pendAdj B = true) :
    pendAdj (A ++ B) = true := by
  induction A with
  | nil => exact hB
  | cons t rest ih =>
    obtain ⟨hhead, hrest⟩ := (Bool.and_eq_true _ _).mp hA
    show ((t != "pend" || ((rest ++ B).headD "" == "oreille")) && pendAdj (rest ++ B)) = true
    rw [Bool.and_eq_true]
    refine ⟨?_, ih hrest⟩
    cases rest with
    | nil =>
      have ht : (t != "pend") = true := by
        rcases (Bool.or_eq_true _ _).mp hhead with h | h
        · exact h
        · exact absurd h (by decide)
      rw [ht, Bool.true_or]
    | cons u urest => exact hhead

theorem pendAdj_flatMap (toks : List String) (f : String → List String)
    (h : ∀ u ∈ toks, pendAdj (f u) = true) : pendAdj (toks.flatMap f) = true := by
  induction toks with
  | nil => rfl
  | cons u rest ih =>
    rw [List.flatMap_cons]
    exact pendAdj_append (f u) (rest.flatMap f) (h u (List.mem_cons_self u rest))
      (ih (fun x hx => h x (List.mem_cons_of_mem _ hx)))

theorem lookup_mem {α β : Type} [BEq α] [LawfulBEq α] (k : α) (l : List (α × β)) (v : β)
    (h : List.lookup k l = some v) : (k, v) ∈ l := by
  induction l with
  | nil => cases h
  | cons p rest ih =>
    obtain ⟨pk, pv⟩ := p
    have h2 : (match k == pk with
      | true => some pv
      | false => List.lookup k rest) = some v := h
    by_cases hk : k == pk
    · rw [hk] at h2
      have : pv = v := Option.some.inj h2
      subst this
      have : k = pk := eq_of_beq hk
      subst this
      exact List.mem_cons_self _ _
    · rw [Bool.not_eq_true] at hk
      rw [hk] at h2
      exact List.mem_cons_of_mem _ (ih h2)

theorem exp_values_ok :
    ∀ kv ∈ TOKEN_EXPANSIONS, pendAdj kv.2 = true ∧ ∀ w ∈ kv.2,
      expandsSelf w ∧ w ≠ "" ∧ cleanTok w = true := by decide

theorem county_values_ok :
    ∀ kv ∈ COUNTY_ABBREVIATIONS, pendAdj (splitTokens kv.2.toList) = true ∧
      ∀ w ∈ splitTokens kv.2.toList, expandsSelf w ∧ w ≠ "" ∧ cleanTok w = true := by decide

/-- The tokens a clean non-empty token expands to: each re-expands to
itself (or is the `pend` of an adjacent `pend oreille` pair), is
non-empty and clean, and the expansion satisfies the adjacency
invariant. -/
theorem normalizeToken_out (u : String) (hcu : cleanTok u = true) (hne : u ≠ "") :
    pendAdj (normalizeToken u) = true ∧
    ∀ d ∈ normalizeToken u, expandsSelf d ∧ d ≠ "" ∧ cleanTok d = true := by
  have hlu : pyLowerStr u = u := pyLowerStr_of_clean u (List.all_eq_true.mp hcu)
  have hunf : normalizeToken u =
      (match List.lookup u TOKEN_EXPANSIONS with
       | some exp => exp
       | none =>
         match List.lookup (pyUpperStr u) COUNTY_ABBREVIATIONS with
         | some county => splitTokens county.toList
         | none => [u]) := by
    unfold normalizeToken
    rw [hlu]
  cases hexp : List.lookup u TOKEN_EXPANSIONS with
  | some exp =>
    rw [hunf, hexp]
    have hmem := lookup_mem u TOKEN_EXPANSIONS exp hexp
    exact exp_values_ok (u, exp) hmem
  | none =>
    cases hcty : List.lookup (pyUpperStr u) COUNTY_ABBREVIATIONS with
    | some cty =>
      rw [hunf, hexp, hcty]
      have hmem := lookup_mem _ COUNTY_ABBREVIATIONS cty hcty
      exact county_values_ok (pyUpperStr u, cty) hmem
    | none =>
      rw [hunf, hexp, hcty]
      have hne_pend : u ≠ "pend" := by
        intro hp
        subst hp
        exact absurd hcty (by decide)
      constructor
      · show ((u != "pend" || (([] : List String).headD "" == "oreille")) && pendAdj []) = true
        rw [Bool.and_eq_true, Bool.or_eq_true]
        exact ⟨Or.inl (bne_iff_ne.mpr hne_pend), rfl⟩
      · intro d hd
        have hd2 : d = u := List.mem_singleton.mp hd
        rw [hd2]
        refine ⟨?_, hne, hcu⟩
        show normalizeToken u = if u = "pend" then ["pend", "oreille"] else [u]
        rw [hunf, hexp, hcty, if_neg hne_pend]

theorem dedup_pendOk (l : List String) :
    ∀ (seen : List String), pendAdj l = true →
      pendOk (dedupTokens l seen) (decide ("oreille" ∈ seen)) = true := by
  induction l with
  | nil => intro seen _; rfl
  | cons t rest ih =>
    intro seen hadj
    obtain ⟨hhead, hrest⟩ := (Bool.and_eq_true _ _).mp hadj
    by_cases ht : t ≠ "" ∧ t ∉ seen
    · rw [dedupTokens_cons_pos t rest seen ht]
      show ((t != "pend" || (decide ("oreille" ∈ seen) ||
        (dedupTokens rest (t :: seen)).headD "" == "oreille")) &&
        pendOk (dedupTokens rest (t :: seen)) (decide ("oreille" ∈ seen) || t == "oreille")) = true
      rw [Bool.and_eq_true]
      constructor
      · by_cases htp : t = "pend"
        · subst htp
          have hh2 : (rest.headD "" == "oreille") = true := by
            rcases (Bool.or_eq_true _ _).mp hhead with h | h
            · exact absurd h (by decide)
            · exact h
          cases hrest2 : rest with
          | nil =>
            rw [hrest2] at hh2
            exact absurd hh2 (by decide)
          | cons r0 rest2 =>
            rw [hrest2] at hh2
            have hr0 : r0 = "oreille" := eq_of_beq hh2
            subst hr0
            by_cases hor : "oreille" ∈ seen
            · rw [Bool.or_eq_true]
              right
              rw [Bool.or_eq_true]
              left
              exact decide_eq_true hor
            · rw [dedupTokens_cons_pos "oreille" rest2 ("pend" :: seen) ⟨by decide, by
                intro hmem
                rcases List.mem_cons.mp hmem with h | h
                · exact absurd h (by decide)
                · exact hor h⟩]
              rw [Bool.or_eq_true]
              right
              rw [Bool.or_eq_true]
              right
              rfl
        · rw [Bool.or_eq_true]
          exact Or.inl (bne_iff_ne.mpr htp)
      · have hre := ih (t :: seen) hrest
        rw [decide_mem_cons "oreille" t seen] at hre
        have hcomm : (decide ("oreille" ∈ seen) || t == "oreille") =
            (decide ("oreille" ∈ seen) || t == "oreille") := rfl
        exact hre
    · rw [dedupTokens_cons_neg t rest seen ht]
      exact ih seen hrest



/-- Flat-mapping `normalizeToken` over an already-deduplicated token
list and deduplicating again is the identity: every token re-expands to
itself except `pend`, whose extra `oreille` is absorbed because an
`oreille` is already present before it or immediately after it. -/
theorem dedup_flatMap (D : List String) :
    ∀ (seen : List String), D.Nodup → (∀ d ∈ D, d ∉ seen) → (∀ d ∈ D, d ≠ "") →
      (∀ d ∈ D, expandsSelf d) →
      pendOk D (decide ("oreille" ∈ seen)) = true →
      dedupTokens (D.flatMap normalizeToken) seen = D := by
  induction D with
  | nil => intro seen _ _ _ _ _; rfl
  | cons d rest ih =>
    intro seen hnd hseen hne hexp hok
    have hnd2 : rest.Nodup := (List.nodup_cons.mp hnd).2
    have hdrest : d ∉ rest := (List.nodup_cons.mp hnd).1
    obtain ⟨hok1, hok2⟩ := (Bool.and_eq_true _ _).mp hok
    have hde : d ≠ "" := hne d (List.mem_cons_self d rest)
    have hds : d ∉ seen := hseen d (List.mem_cons_self d rest)
    have hseenrest : ∀ x ∈ rest, x ∉ d :: seen := by
      intro x hx hmem
      rcases List.mem_cons.mp hmem with h | h
      · exact hdrest (h ▸ hx)
      · exact hseen x (List.mem_cons_of_mem _ hx) h
    by_cases hdp : d = "pend"
    · subst hdp
      have hnt : normalizeToken "pend" = ["pend", "oreille"] := by
        have h2 := hexp "pend" (List.mem_cons_self _ rest)
        have h3 : normalizeToken "pend" =
            if ("pend" : String) = "pend" then ["pend", "oreille"] else ["pend"] := h2
        rw [if_pos rfl] at h3
        exact h3
      have hcond : (decide ("oreille" ∈ seen) || rest.headD "" == "oreille") = true := by
        rcases (Bool.or_eq_true _ _).mp hok1 with h | h
        · exact absurd h (by decide)
        · exact h
      have hflat : ("pend" :: rest).flatMap normalizeToken =
          "pend" :: "oreille" :: rest.flatMap normalizeToken := by
        rw [List.flatMap_cons, hnt]
        rfl
      rw [hflat, dedupTokens_cons_pos _ _ _ ⟨by decide, hds⟩]
      congr 1
      have hokrest : pendOk rest (decide ("oreille" ∈ "pend" :: seen)) = true := by
        rw [decide_mem_cons "oreille" "pend" seen]
        have h2 : (("pend" : String) == "oreille") = false := by decide
        rw [h2, Bool.or_false]
        have h3 : (decide ("oreille" ∈ seen) || ("pend" : String) == "oreille") =
            decide ("oreille" ∈ seen) := by rw [h2, Bool.or_false]
        rw [h3] at hok2
        exact hok2
      rcases (Bool.or_eq_true _ _).mp hcond with hfl | hhd
      · have hor : "oreille" ∈ seen := of_decide_eq_true hfl
        rw [dedupTokens_cons_neg _ _ _ (by
          intro hcontra
          exact hcontra.2 (List.mem_cons_of_mem _ hor))]
        exact ih ("pend" :: seen) hnd2 hseenrest
          (fun x hx => hne x (List.mem_cons_of_mem _ hx))
          (fun x hx => hexp x (List.mem_cons_of_mem _ hx)) hokrest
      · cases hrest2 : rest with
        | nil =>
          rw [hrest2] at hhd
          exact absurd hhd (by decide)
        | cons r0 rest2 =>
          rw [hrest2] at hhd
          have hr0 : r0 = "oreille" := eq_of_beq hhd
          subst hr0
          have hor_notseen : "oreille" ∉ seen := by
            apply hseen "oreille"
            rw [hrest2]
            exact List.mem_cons_of_mem _ (List.mem_cons_self _ _)
          have hih := ih ("pend" :: seen) hnd2 hseenrest
            (fun x hx => hne x (List.mem_cons_of_mem _ hx))
            (fun x hx => hexp x (List.mem_cons_of_mem _ hx)) hokrest
          rw [hrest2] at hih
          have hnt2 : normalizeToken "oreille" = ["oreille"] := by
            have h2 := hexp "oreille" (by
              rw [hrest2]
              exact List.mem_cons_of_mem _ (List.mem_cons_self _ _))
            have h3 : normalizeToken "oreille" =
                if ("oreille" : String) = "pend" then ["pend", "oreille"] else ["oreille"] := h2
            rw [if_neg (by decide)] at h3
            exact h3
          have hflat2 : ("oreille" :: rest2).flatMap normalizeToken =
              "oreille" :: rest2.flatMap normalizeToken := by
            rw [List.flatMap_cons, hnt2]
            rfl
          have hnotin : ("oreille" : String) ∉ "pend" :: seen := by
            intro hmem
            rcases List.mem_cons.mp hmem with h | h
            · exact absurd h (by decide)
            · exact hor_notseen h
          rw [hflat2, dedupTokens_cons_pos _ _ _ ⟨by decide, hnotin⟩] at hih
          have hX : dedupTokens (rest2.flatMap normalizeToken)
              ("oreille" :: "pend" :: seen) = rest2 := by
            have h2 := hih
            injection h2
          rw [dedupTokens_cons_pos _ _ _ ⟨by decide, hnotin⟩]
          rw [hflat2, dedupTokens_cons_neg _ _ _ (by
            intro hcontra
            exact hcontra.2 (List.mem_cons_self _ _))]
          rw [hX]
    · have hnt : normalizeToken d = [d] := by
        have h2 := hexp d (List.mem_cons_self d rest)
        have h3 : normalizeToken d =
            if d = "pend" then ["pend", "oreille"] else [d] := h2
        rw [if_neg hdp] at h3
        exact h3
      have hflat : (d :: rest).flatMap normalizeToken = d :: rest.flatMap normalizeToken := by
        rw [List.flatMap_cons, hnt]
        rfl
      rw [hflat, dedupTokens_cons_pos _ _ _ ⟨hde, hds⟩]
      congr 1
      apply ih (d :: seen) hnd2 hseenrest
        (fun x hx => hne x (List.mem_cons_of_mem _ hx))
        (fun x hx => hexp x (List.mem_cons_of_mem _ hx))
      rw [decide_mem_cons "oreille" d seen]
      exact hok2

theorem joinSpace_chars (ts : List String)
    (h : ∀ t ∈ ts, ∀ c ∈ t.toList, isCleanChar c = true) :
    ∀ c ∈ (joinSpace ts).toList, isCleanChar c = true ∨ c = ' ' := by
  induction ts with
  | nil => intro c hc; cases hc
  | cons t rest ih =>
    cases rest with
    | nil =>
      intro c hc
      exact Or.inl (h t (List.mem_cons_self t []) c hc)
    | cons u us =>
      intro c hc
      have htl : (joinSpace (t :: u :: us)).toList =
          (t.toList ++ [' ']) ++ (joinSpace (u :: us)).toList := rfl
      rw [htl] at hc
      rcases List.mem_append.mp hc with h1 | h1
      · rcases List.mem_append.mp h1 with h2 | h2
        · exact Or.inl (h t (List.mem_cons_self t _) c h2)
        · exact Or.inr (List.mem_singleton.mp h2)
      · exact ih (fun x hx => h x (List.mem_cons_of_mem _ hx)) c h1

/-- A deduplicated token list whose members re-expand to themselves
(with the `pend oreille` invariant) is a fixed point of the whole
normalization pipeline. -/
theorem normalizeQ_fixed (D : List String)
    (hnd : D.Nodup)
    (hfacts : ∀ d ∈ D, expandsSelf d ∧ d ≠ "" ∧ cleanTok d = true)
    (hok : pendOk D false = true) :
    (normalizeQ (joinSpace D) none).tokens = D ∧
    (normalizeQ (joinSpace D) none).normalized = joinSpace D := by
  have hclean2 : ∀ c ∈ (joinSpace D).toList, isCleanChar c = true ∨ c = ' ' :=
    joinSpace_chars D (fun t ht c hc => List.all_eq_true.mp (hfacts t ht).2.2 c hc)
  have hcn : charNormalize (joinSpace D).toList = (joinSpace D).toList :=
    charNormalize_id _ hclean2
  have hsplit : splitTokens (joinSpace D).toList = D :=
    splitTokens_joinSpace D (fun t ht => ⟨(hfacts t ht).2.1, fun c hc =>
      clean_not_space c (List.all_eq_true.mp (hfacts t ht).2.2 c hc)⟩)
  have hded : dedupTokens (D.flatMap normalizeToken) [] = D :=
    dedup_flatMap D [] hnd (fun d _ hmem => absurd hmem (List.not_mem_nil d))
      (fun d hd => (hfacts d hd).2.1) (fun d hd => (hfacts d hd).1) hok
  constructor
  · show dedupTokens ((splitTokens (charNormalize (joinSpace D).toList)).flatMap
      normalizeToken) [] = D
    rw [hcn, hsplit, hded]
  · show joinSpace (dedupTokens ((splitTokens (charNormalize (joinSpace D).toList)).flatMap
      normalizeToken) []) = joinSpace D
    rw [hcn, hsplit, hded]

/-- C6: normalization is idempotent.  Running `normalize_name` on the
`normalized` output of a previous run returns the same `normalized`
string and the same token list. -/
theorem claim6_idempotent (s : String) :
    (normalize_name (.str (normalize_name (.str s) none).normalized) none).normalized =
      (normalize_name (.str s) none).normalized ∧
    (normalize_name (.str (normalize_name (.str s) none).normalized) none).tokens =
      (normalize_name (.str s) none).tokens := by
  have htoksfacts : ∀ t ∈ splitTokens (charNormalize s.toList),
      t ≠ "" ∧ ∀ c ∈ t.toList, isCleanChar c = true :=
    fun t ht => splitToksAux_tokens (charNormalize s.toList) []
      (charNormalize_chars s.toList) (fun c hc => absurd hc (List.not_mem_nil c)) t ht
  have hexpfacts : ∀ d ∈ (splitTokens (charNormalize s.toList)).flatMap normalizeToken,
      expandsSelf d ∧ d ≠ "" ∧ cleanTok d = true := by
    intro d hd
    obtain ⟨u, hu, hdu⟩ := List.mem_flatMap.mp hd
    obtain ⟨hu1, hu2⟩ := htoksfacts u hu
    exact (normalizeToken_out u (List.all_eq_true.mpr hu2) hu1).2 d hdu
  have hadj : pendAdj ((splitTokens (charNormalize s.toList)).flatMap normalizeToken) = true := by
    apply pendAdj_flatMap
    intro u hu
    obtain ⟨hu1, hu2⟩ := htoksfacts u hu
    exact (normalizeToken_out u (List.all_eq_true.mpr hu2) hu1).1
  have hdedfacts : ∀ d ∈ (normalizeQ s none).tokens,
      expandsSelf d ∧ d ≠ "" ∧ cleanTok d = true := by
    intro d hd
    have hd2 : d ∈ dedupTokens
        ((splitTokens (charNormalize s.toList)).flatMap normalizeToken) [] := hd
    exact hexpfacts d (dedupTokens_mem _ [] d hd2).1
  have hnd : (normalizeQ s none).tokens.Nodup :=
    dedupTokens_nodup ((splitTokens (charNormalize s.toList)).flatMap normalizeToken) []
  have hok : pendOk (normalizeQ s none).tokens false = true :=
    dedup_pendOk ((splitTokens (charNormalize s.toList)).flatMap normalizeToken) [] hadj
  have hmain := normalizeQ_fixed (normalizeQ s none).tokens hnd hdedfacts hok
  have hnorm : (normalizeQ s none).normalized = joinSpace (normalizeQ s none).tokens := rfl
  constructor
  · show (normalizeQ (normalizeQ s none).normalized none).normalized =
      (normalizeQ s none).normalized
    rw [hnorm]
    exact hmain.2
  · show (normalizeQ (normalizeQ s none).normalized none).tokens = (normalizeQ s none).tokens
    rw [hnorm]
    exact hmain.1

end TroutTracker
